import Mathlib

/-!
# Bounds-checked memory access code generation (wag, x86 back end)

A shallow embedding of `internal/x86/memory.go`: the instruction selection
tables `memoryLoads` / `memoryStores`, the table lookup, the address resolver
`opMemoryAddress` and the two compilers `LoadOp` and `StoreOp`; of the section
copier of `internal/section/section.go`; and of the integer writers, the
section framing and the entry function synthesis of `rewrite/rewrite.go`.

The code emitter, the register allocator and the trap link table are
collaborators of that file.  Every request the code makes to them is recorded,
in call order, as one `Emit` event; the answers of the register allocator are
fields of `RegCoder`.  A Go panic is the error of `Except`.
-/

set_option autoImplicit false

namespace Wag

/-! ## Collaborating declarations -/

/-- Modelled from the spec: the `types` package is missing.  A value type
belongs to a category; `other` stands for whatever `Category()` may return
besides `Int` and `Float` (the `default:` branch of `lookup`). -/
inductive Category where
  | Int
  | Float
  | other
  deriving DecidableEq, Repr

/-- Modelled from the spec: the two widths of a scalar value type, in bytes. -/
inductive Size where
  | Size32
  | Size64
  deriving DecidableEq, Repr

/-- Number of bytes of a width, the `int(t.Size())` of the source. -/
def Size.toInt : Size → Int
  | .Size32 => 4
  | .Size64 => 8

/-- Modelled from the spec: a value type `types.T`, observed through its
`Category()` and its `Size()`. -/
structure T where
  Category : Category
  Size : Size
  deriving DecidableEq, Repr

def I32 : T := ⟨.Int, .Size32⟩
def I64 : T := ⟨.Int, .Size64⟩
def F32 : T := ⟨.Float, .Size32⟩
def F64 : T := ⟨.Float, .Size64⟩

/-- Register numbers, `regs.R`. -/
abbrev R := Nat

/-- Modelled from the spec: the extension tag `values.Extension` of a
register-held value (None, Zero-extended, Sign-extended). -/
inductive Extension where
  | NoExt
  | ZeroExt
  | SignExt
  deriving DecidableEq, Repr

/-- Modelled from the spec: where an operand lives, `values.Storage`.  The code
only distinguishes `Imm` from everything else. -/
inductive Storage where
  | Imm
  | VarReg
  | TempReg
  | Stack
  deriving DecidableEq, Repr

/-- Conversion to Go `int8`. -/
def int8 (v : Int) : Int := (v + 128) % 256 - 128

/-- Conversion to Go `int16`. -/
def int16 (v : Int) : Int := (v + 32768) % 65536 - 32768

/-- Conversion to Go `int32`. -/
def int32 (v : Int) : Int := (v + 2147483648) % 4294967296 - 2147483648

/-- Conversion to Go `int64` (wraparound of 64-bit arithmetic). -/
def int64 (v : Int) : Int :=
  (v + 9223372036854775808) % 18446744073709551616 - 9223372036854775808

/-- Modelled from the spec: an operand `values.Operand`: its storage class, its
payload (the constant of an immediate, the register number otherwise) and the
extension tag of a register-held value. -/
structure Operand where
  Storage : Storage
  X : Int
  Ext : Extension
  deriving DecidableEq, Repr

/-- Modelled from the spec: `values.ImmOperand`, a compile-time constant. -/
def ImmOperand (_t : T) (value : Int) : Operand := ⟨.Imm, value, .NoExt⟩

/-- Modelled from the spec: `values.TempRegOperand`, a value in a temporary
register carrying an extension tag. -/
def TempRegOperand (reg : R) (ext : Extension) : Operand := ⟨.TempReg, reg, ext⟩

/-- Modelled from the spec: `Operand.ImmValue`, the constant read as an `int64`
at the width of the type. -/
def Operand.ImmValue (o : Operand) (t : T) : Int :=
  match t.Size with
  | .Size32 => int32 o.X
  | .Size64 => int64 o.X

/-- The instruction values of the x86 package that `memory.go` names.
`binaryInsn a b` is the composite literal `binaryInsn{a, b}`. -/
inductive Insn where
  | Mov | Mov8 | Mov16 | Cmp | Lea | JmpRel | Jg
  | Movsx8 | Movzx8 | Movsx16 | Movzx16 | Movsxd | MovsSSE
  | NoImmInst | MovImm
  | binaryInsn (rm imm : Insn)
  deriving DecidableEq, Repr

/-- One request to a collaborator, in call order: the five emitter forms used
by `memory.go`, the two register borrows and `code.FreeReg`. -/
inductive Emit where
  | opFromIndirect (insn : Insn) (t : T) (target : R) (scale : Nat) (index base : R) (disp : Int)
  | opToIndirect (insn : Insn) (t : T) (source : R) (scale : Nat) (index base : R) (disp : Int)
  | opImmToIndirect (insn : Insn) (t : T) (base : R) (disp : Int) (bits : Int)
  | opFromReg (insn : Insn) (t : T) (target source : R)
  | op (insn : Insn) (addr : Int)
  | opBorrowScratchReg (t : T) (x : Operand)
  | opBorrowResultReg (t : T) (x : Operand)
  | FreeReg (t : T) (reg : R)
  deriving DecidableEq, Repr

/-- The fixed registers of the x86 package and its `NoIndex` marker; their
numbers are declared outside `memory.go`. -/
structure X86 where
  regResult : R
  regScratch : R
  regMemoryPtr : R
  regMemoryLimit : R
  NoIndex : R
  deriving DecidableEq, Repr

/-- What `memory.go` reads from `gen.RegCoder` and from the register allocator:
the minimum memory size, the final address of the MemoryOutOfBounds trap, and
the answers `(reg, ext, own)` / `(reg, zeroExt, own)` of the two borrows. -/
structure RegCoder where
  MinMemorySize : Int
  MemoryOutOfBounds : Int
  opBorrowScratchReg : T → Operand → R × Extension × Bool
  opBorrowResultReg : T → Operand → R × Bool × Bool

/-- The value a Go `panic` was raised with. -/
inductive Panic where
  | type (t : T)
  | name (s : String)
  deriving DecidableEq, Repr

/-! ## `memory.go` -/

structure memoryAccess where
  truncate : Int
  ext : Extension
  insn : Insn
  deriving DecidableEq, Repr

/-- The two maps of a table, as association lists keyed by operation name. -/
structure memoryAccesses where
  integer : List (String × memoryAccess)
  float : List (String × memoryAccess)

def memoryAccesses.lookup (as : memoryAccesses) (t : T) (name : String) :
    Except Panic memoryAccess :=
  match t.Category with
  | .Int =>
    match as.integer.lookup name with
    | some a => .ok a
    | none => .error (.name name)
  | .Float =>
    match as.float.lookup name with
    | some a => .ok a
    | none => .error (.name name)
  | .other => .error (.type t)

def memoryLoads : memoryAccesses where
  integer := [
    ("load", ⟨0, .ZeroExt, .Mov⟩),
    ("load8_s", ⟨1, .NoExt, .binaryInsn .Movsx8 .NoImmInst⟩),
    ("load8_u", ⟨1, .NoExt, .binaryInsn .Movzx8 .NoImmInst⟩),
    ("load16_s", ⟨2, .NoExt, .binaryInsn .Movsx16 .NoImmInst⟩),
    ("load16_u", ⟨2, .NoExt, .binaryInsn .Movzx16 .NoImmInst⟩),
    ("load32_s", ⟨4, .NoExt, .binaryInsn .Movsxd .NoImmInst⟩),
    ("load32_u", ⟨4, .ZeroExt, .Mov⟩)]
  float := [
    ("load", ⟨0, .NoExt, .binaryInsn .MovsSSE .NoImmInst⟩)]

def memoryStores : memoryAccesses where
  integer := [
    ("store", ⟨0, .NoExt, .Mov⟩),
    ("store8", ⟨1, .NoExt, .Mov8⟩),
    ("store16", ⟨2, .NoExt, .Mov16⟩),
    ("store32", ⟨4, .NoExt, .Mov⟩)]
  float := [
    ("store", ⟨0, .NoExt, .binaryInsn .MovsSSE .MovImm⟩)]

/-- The access size computed at the head of `opMemoryAddress`. -/
def accessSize (t : T) (truncate : Int) : Int :=
  if truncate ≠ 0 then truncate else t.Size.toInt

/-- Address resolver.  Returns the events it caused, then `baseReg`, `disp` and
`deadend`; the deferred `FreeReg` of the borrowed address register runs when
the function returns, hence last. -/
def opMemoryAddress (mach : X86) (code : RegCoder) (t : T) (x : Operand) (truncate : Int) :
    List Emit × R × Int × Bool :=
  let size := accessSize t truncate
  match x.Storage with
  | .Imm =>
    let addr := x.ImmValue I32
    let end_ := int64 (addr + size)
    if addr < 0 ∨ end_ > 0x80000000 then
      ([.op .JmpRel code.MemoryOutOfBounds], 0, 0, true)
    else if end_ ≤ code.MinMemorySize then
      ([], mach.regMemoryPtr, addr, false)
    else
      ([.opFromIndirect .Lea I64 mach.regScratch 0 mach.NoIndex mach.regMemoryPtr end_,
        .opFromReg .Cmp I64 mach.regScratch mach.regMemoryLimit,
        .op .Jg code.MemoryOutOfBounds],
       mach.regScratch, -size, false)
  | _ =>
    let (reg, ext, own) := code.opBorrowScratchReg I32 x
    ([.opBorrowScratchReg I32 x]
      ++ (if ext ≠ .ZeroExt then [.opFromReg .Mov I32 reg reg] else [])
      ++ [.opFromIndirect .Lea I64 mach.regScratch 0 reg mach.regMemoryPtr size,
          .opFromReg .Cmp I64 mach.regScratch mach.regMemoryLimit,
          .op .Jg code.MemoryOutOfBounds]
      ++ (if own then [.FreeReg I32 reg] else []),
     mach.regScratch, -size, false)

def LoadOp (mach : X86) (code : RegCoder) (name : String) (t : T) (x : Operand) :
    Except Panic (List Emit × Operand × Bool) := do
  let load ← memoryLoads.lookup t name
  let (tr, baseReg, disp, deadend) := opMemoryAddress mach code t x load.truncate
  if deadend then
    return (tr, ImmOperand t 0, true)
  return (tr ++ [.opFromIndirect load.insn t mach.regResult 0 mach.NoIndex baseReg disp],
    TempRegOperand mach.regResult load.ext, false)

/-- The `switch` of `StoreOp` on an immediate value: `some bits` when `ok`. -/
def storeImmBits (truncate : Int) (value : Int) : Option Int :=
  if truncate = 8 then some (int8 value)
  else if truncate = 16 then some (int16 value)
  else if truncate = 32 then some (int32 value)
  else if value ≥ -0x80000000 ∧ value < 0x80000000 then some value
  else none

/-- The register path of `StoreOp`: borrow, store, deferred release. -/
def storeFromReg (mach : X86) (code : RegCoder) (store : memoryAccess) (t opType : T)
    (b : Operand) (baseReg : R) (disp : Int) : List Emit :=
  let (valueReg, _, own) := code.opBorrowResultReg t b
  [.opBorrowResultReg t b,
   .opToIndirect store.insn opType valueReg 0 mach.NoIndex baseReg disp]
    ++ (if own then [.FreeReg t valueReg] else [])

def StoreOp (mach : X86) (code : RegCoder) (name : String) (t : T) (a b : Operand) :
    Except Panic (List Emit × Bool) := do
  let store ← memoryStores.lookup t name
  let (tr, baseReg, disp, deadend) := opMemoryAddress mach code t a store.truncate
  if deadend then
    return (tr, true)
  let opType := if store.truncate ≥ 1 ∧ store.truncate ≤ 4 then I32 else t
  if b.Storage = .Imm then
    let value := b.ImmValue t
    match storeImmBits store.truncate value with
    | some bits =>
      return (tr ++ [.opImmToIndirect store.insn opType baseReg disp bits], false)
    | none =>
      return (tr ++ storeFromReg mach code store t opType b baseReg disp, false)
  else
    return (tr ++ storeFromReg mach code store t opType b baseReg disp, false)

/-! ## Predicates on the recorded events -/

/-- The event is an instruction handed to the emitter (not a register
allocator call). -/
def Emit.isInsn : Emit → Bool
  | .opFromIndirect .. => true
  | .opToIndirect .. => true
  | .opImmToIndirect .. => true
  | .opFromReg .. => true
  | .op .. => true
  | _ => false

/-- The event is a load or store instruction: an indirect form other than the
address computation `Lea`. -/
def Emit.isMemoryInsn : Emit → Bool
  | .opFromIndirect insn _ _ _ _ _ _ => decide (insn ≠ .Lea)
  | .opToIndirect .. => true
  | .opImmToIndirect .. => true
  | _ => false

/-- The event is a comparison or a jump. -/
def Emit.isCheck : Emit → Bool
  | .opFromReg .Cmp _ _ _ => true
  | .op .. => true
  | _ => false

/-- The events contain one bounds check, `Cmp scratch, limit` directly followed
by `Jg trap`, no other comparison or jump, and one load or store instruction,
which comes after the check. -/
def CheckedOnce (mach : X86) (code : RegCoder) (tr : List Emit) : Prop :=
  ∃ pre post m,
    tr = pre ++ [.opFromReg .Cmp I64 mach.regScratch mach.regMemoryLimit,
                 .op .Jg code.MemoryOutOfBounds] ++ post ∧
    (∀ e ∈ pre, e.isCheck = false ∧ e.isMemoryInsn = false) ∧
    (∀ e ∈ post, e.isCheck = false) ∧
    post.filter Emit.isMemoryInsn = [m]

/-! ## Sample context used for concrete evaluations -/

/-- The amd64 register numbers: result rax, scratch rdx, memory base r14,
memory limit r15; rsp marks the absent index. -/
def mach0 : X86 := ⟨0, 2, 14, 15, 4⟩

/-- A context with one 64 KiB page of guaranteed memory whose allocator hands
out register 1 with an undefined upper half, owned by the borrower. -/
def code0 : RegCoder := ⟨65536, 4096, fun _ _ => (1, .NoExt, true), fun _ _ => (1, false, true)⟩

/-- The same context for a module whose minimum memory is 4 GiB (65536 pages). -/
def code4G : RegCoder := { code0 with MinMemorySize := 4294967296 }

/-- The event is a register-to-register `Mov`. -/
def Emit.isMov : Emit → Bool
  | .opFromReg .Mov _ _ _ => true
  | _ => false

/-- Modelled from the spec: the value an address computation
`[base + index + disp]` yields under register contents `val`, the index being
absent when it is the `NoIndex` marker (scale 0 is a factor of one). -/
def effectiveAddress (mach : X86) (val : R → Int) (index base : R) (disp : Int) : Int :=
  val base + (if index = mach.NoIndex then 0 else val index) + disp

/-! ## `rewrite/rewrite.go`: integer writers

A `bytes.Buffer` is the list of its bytes; a writer returns the bytes it
appends.  Bytes are natural numbers below 256. -/

/-- The loop of `writeVarint64`: `septet` is `uint8(x) & 0x7f`, the division is
the arithmetic shift `x >>= 7`, `v - v % 2` is `v &^ 1` and `septet + 128` is
`septet | 0x80`.  The recursion is the next turn of the `for` loop. -/
def writeVarint64 (x : Int) : List Nat :=
  let septet := (x % 128).toNat
  let x := x / 128
  if (x + 1) - (x + 1) % 2 = 0 then
    [septet]
  else
    (septet + 128) :: writeVarint64 x
termination_by x.natAbs
decreasing_by omega

/-- The argument is an `int8`; `int64(x)` keeps its value. -/
def writeVarint7 (x : Int) : List Nat := writeVarint64 x

/-- The argument is an `int32`; `int64(x)` keeps its value. -/
def writeVarint32 (x : Int) : List Nat := writeVarint64 x

/-- Go's `binary.PutUvarint`, as the bytes it stores: `x % 128 + 128` is
`byte(x) | 0x80` and the division is `x >>= 7`. -/
def PutUvarint (x : Nat) : List Nat :=
  if x ≥ 0x80 then
    (x % 128 + 128) :: PutUvarint (x / 128)
  else
    [x]
termination_by x
decreasing_by omega

/-- The argument is a `uint32`. -/
def writeVaruint32 (x : Nat) : List Nat := PutUvarint x

/-- Go's `binary.Write` of a `uint32`, little endian. -/
def writeUint32 (x : Nat) : List Nat :=
  [x % 256, x / 256 % 256, x / 65536 % 256, x / 16777216 % 256]

/-- Go's `binary.Write` of a `uint64`, little endian. -/
def writeUint64 (x : Nat) : List Nat :=
  writeUint32 (x % 4294967296) ++ writeUint32 (x / 4294967296 % 4294967296)

/-- Go's `binary.Uvarint` from byte `i` on, with the accumulated value `x` and
shift `s`; the result is the value and the number of bytes read (0: buffer too
small, negative: overflow).  The sum is the bitwise or of disjoint bits. -/
def UvarintLoop : List Nat → Nat → Nat → Nat → Nat × Int
  | [], _, _, _ => (0, 0)
  | b :: buf, i, x, s =>
    if i = 10 then (0, -((i : Int) + 1))
    else if b < 0x80 then
      if i = 9 ∧ b > 1 then (0, -((i : Int) + 1))
      else (x + b * 2 ^ s, (i : Int) + 1)
    else UvarintLoop buf (i + 1) (x + (b % 128) * 2 ^ s) (s + 7)

/-- Go's `binary.Uvarint`. -/
def Uvarint (buf : List Nat) : Nat × Int := UvarintLoop buf 0 0 0

/-- What a run-time panic of `rewrite.go` was raised for. -/
inductive Fault where
  | invalidScalarType
  | indexOutOfRange
  deriving DecidableEq, Repr

def writeConstOp (t : T) (value : Nat) : Except Fault (List Nat) :=
  if t = I32 then .ok (0x41 :: writeVarint32 (int32 value))
  else if t = I64 then .ok (0x42 :: writeVarint64 (int64 value))
  else if t = F32 then .ok (0x43 :: writeUint32 (value % 4294967296))
  else if t = F64 then .ok (0x44 :: writeUint64 value)
  else .error .invalidScalarType

/-- The slice expression `s[i:]`. -/
def sliceFrom (s : List Nat) (i : Int) : Except Fault (List Nat) :=
  if 0 ≤ i ∧ i ≤ s.length then .ok (s.drop i.toNat) else .error .indexOutOfRange

/-- The loop `for i, t := range params` of `appendEntryFunctionCode`, from
index `i` on: `args[i]` is read, then `writeConstOp` is called. -/
def writeConstOps : List T → List Nat → Nat → Except Fault (List Nat)
  | [], _, _ => .ok []
  | t :: params, args, i =>
    match args[i]? with
    | none => .error .indexOutOfRange
    | some a =>
      match writeConstOp t a with
      | .error e => .error e
      | .ok c =>
        match writeConstOps params args (i + 1) with
        | .error e => .error e
        | .ok cs => .ok (c ++ cs)

def appendEntryFunctionCode (oldSection : List Nat) (callIndex : Nat) (params : List T)
    (args : List Nat) : Except Fault (List Nat) := do
  let consts ← writeConstOps params args 0
  let newBody := writeVaruint32 0 ++ consts ++ [0x10] ++ writeVaruint32 callIndex ++ [0x0b]
  let tail ← sliceFrom oldSection 1
  let n := (Uvarint tail).2
  let oldPayload ← sliceFrom oldSection (1 + n)
  let (oldBodyCount, n) := Uvarint oldPayload
  let oldBodies ← sliceFrom oldPayload n
  let newPayload := writeVaruint32 ((oldBodyCount + 1) % 4294967296) ++ oldBodies
    ++ writeVaruint32 (newBody.length % 4294967296) ++ newBody
  match oldSection with
  | [] => .error .indexOutOfRange
  | id :: _ => return id :: (writeVaruint32 (newPayload.length % 4294967296) ++ newPayload)

/-- Go's `copy(dst, src)`, as the new contents of `dst`. -/
def copy (dst src : List Nat) : List Nat := src.take dst.length ++ dst.drop src.length

/-- The closure `writeSection` of `writePreliminarySections` on the buffer `b`;
`writePayload` is the effect of the payload writer on the buffer.  `none` is an
index or slice bound out of range. -/
def writeSection (b : List Nat) (sectionType : Nat) (writePayload : List Nat → List Nat) :
    Option (List Nat) :=
  let b := b ++ [sectionType]
  let sizeOffset := b.length
  let b := b ++ List.replicate 5 0
  let payloadOffset := b.length
  let b := writePayload b
  let payloadSize : Int := (b.length : Int) - payloadOffset
  if sizeOffset ≤ b.length then
    let data := b.drop sizeOffset
    let enc := PutUvarint (payloadSize % 18446744073709551616).toNat
    let n := enc.length
    if n ≤ data.length ∧ 5 ≤ data.length then
      let data := enc ++ data.drop n
      let data := data.take n ++ copy (data.drop n) (data.drop 5)
      let b := b.take sizeOffset ++ data
      let size : Int := sizeOffset + n + payloadSize
      if 0 ≤ size ∧ size ≤ b.length then some (b.take size.toNat) else none
    else none
  else none

/-- Modelled from the spec: the standard WebAssembly signed LEB128 (varint)
decoder: seven value bits per byte, least significant group first, a set bit 7
continues, and the value is sign-extended from bit 6 of the final byte.
Returns the value and the bytes left. -/
def decodeVarint : List Nat → Option (Int × List Nat)
  | [] => none
  | b :: rest =>
    if b < 128 then some ((if 64 ≤ b then (b : Int) - 128 else (b : Int)), rest)
    else
      match decodeVarint rest with
      | none => none
      | some (v, r) => some ((b : Int) - 128 + 128 * v, r)

/-! ## `rewrite/rewrite.go`: the signature of the entry function -/

/-- Modelled from the spec: `types.Function`, a signature: the parameter types
and the result type. -/
structure Function where
  Args : List T
  Result : T
  deriving DecidableEq, Repr

/-- The fields of `wag.Module` that `EntryFunction` reads and updates between
loading the preliminary sections and copying the code section. -/
structure Module where
  Sigs : List Function
  FuncSigs : List Nat
  EntryDefined : Bool
  EntryIndex : Nat
  deriving DecidableEq, Repr

/-- Why `EntryFunction` stopped: the error it returns, or an index out of
range. -/
inductive EntryError where
  | targetNotFound
  | indexOutOfRange
  deriving DecidableEq, Repr

/-- The loop `for i, sig := range m.Sigs` of `EntryFunction` from index `i` on,
`entrySigIndex` being -1 before it. -/
def findEntrySig (result : T) : List Function → Nat → Int
  | [], _ => -1
  | sig :: sigs, i =>
    if sig.Args.length = 0 ∧ sig.Result = result then (i : Int)
    else findEntrySig result sigs (i + 1)

/-- Lines 305 to 326 of `EntryFunction`, on the module left by
`LoadPreliminarySections`: the module with the entry function added, the
`entrySigIndex` as stored (a `uint32`) and the `entryFuncIndex`. -/
def entryFunctionSignature (m : Module) : Except EntryError (Module × Nat × Nat) :=
  if !m.EntryDefined then .error .targetNotFound
  else
    let targetFuncIndex := m.EntryIndex
    match m.FuncSigs[targetFuncIndex]? with
    | none => .error .indexOutOfRange
    | some targetSigIndex =>
      match m.Sigs[targetSigIndex]? with
      | none => .error .indexOutOfRange
      | some targetSig =>
        let result := targetSig.Result
        let entrySigIndex := findEntrySig result m.Sigs 0
        let (entrySigIndex, sigs) :=
          if entrySigIndex < 0 then
            ((m.Sigs.length : Int), m.Sigs ++ [{ Args := [], Result := result }])
          else (entrySigIndex, m.Sigs)
        let entryFuncIndex := m.FuncSigs.length
        let funcSigs := m.FuncSigs ++ [(entrySigIndex % 4294967296).toNat]
        .ok ({ m with Sigs := sigs, FuncSigs := funcSigs },
          (entrySigIndex % 4294967296).toNat, entryFuncIndex)

/-! ## `internal/section/section.go`

The reader is the list of the bytes it has left, the writer the list of the
bytes written to it. -/

/-- The errors a read can fail with. -/
inductive StreamError where
  | EOF
  | varuint32TooLarge
  deriving DecidableEq, Repr

/-- Modelled from the spec: `module.SectionUnknown`, the id 0 of an unknown
section. -/
def SectionUnknown : Nat := 0

/-- Modelled from the spec: `module.SectionCode`, the id of the code section. -/
def SectionCode : Nat := 10

/-- Modelled from the spec: `loader.L.Varuint32` is missing.  A varuint32 is an
unsigned LEB128 number of at most five bytes and less than 2^32; the loop is at
byte `i` with the accumulated value `x` and shift `s`.  Returns the value, or
the error it panics with, and the bytes left in the reader. -/
def Varuint32Loop : List Nat → Nat → Nat → Nat → Except StreamError Nat × List Nat
  | [], _, _, _ => (.error .EOF, [])
  | b :: r, i, x, s =>
    if b < 0x80 then
      if i > 4 ∨ (i = 4 ∧ b > 0xf) then (.error .varuint32TooLarge, r)
      else (.ok (x + b * 2 ^ s), r)
    else Varuint32Loop r (i + 1) (x + (b % 128) * 2 ^ s) (s + 7)

/-- Modelled from the spec: `loader.L.Varuint32`. -/
def Varuint32 (r : List Nat) : Except StreamError Nat × List Nat := Varuint32Loop r 0 0 0

/-- Go's `io.CopyN(dst, src, n)`: the bytes copied, the bytes left in the
reader, and `io.EOF` when the reader ends before `n` bytes. -/
def CopyN (r : List Nat) (n : Nat) : List Nat × List Nat × Option StreamError :=
  if n ≤ r.length then (r.take n, r.drop n, none) else (r, [], some .EOF)

/-- The function `copyPanic` with the `for` loop bounded by `fuel` turns (`none`
when they are used up): the value returned or the error it panics with, the
bytes written to `w` and the bytes left in `r`.  `store.Varuint32` writes the
unsigned LEB128 bytes of its argument. -/
def copyLoop (expectId : Nat) : Nat → List Nat →
    Option (Except StreamError Bool × List Nat × List Nat)
  | 0, _ => none
  | _ + 1, [] => some (.ok false, [], [])
  | fuel + 1, id :: r =>
    if id = SectionUnknown then
      match Varuint32 r with
      | (.error e, r) => some (.error e, [], r)
      | (.ok payloadLen, r) =>
        match CopyN r payloadLen with
        | (_, r, some e) => some (.error e, [], r)
        | (_, r, none) => copyLoop expectId fuel r
    else if id = expectId then
      match Varuint32 r with
      | (.error e, r) => some (.error e, [id], r)
      | (.ok payloadLen, r) =>
        match CopyN r payloadLen with
        | (copied, r, some e) => some (.error e, [id] ++ PutUvarint payloadLen ++ copied, r)
        | (copied, r, none) => some (.ok true, [id] ++ PutUvarint payloadLen ++ copied, r)
    else some (.ok false, [], id :: r)

/-- Every turn of the loop reads at least one byte, so one turn more than the
bytes left is enough. -/
def copyPanic (r : List Nat) (expectId : Nat) :
    Option (Except StreamError Bool × List Nat × List Nat) :=
  copyLoop expectId (r.length + 1) r

/-- The results `ok` and `err`, the bytes written to `w` and the bytes left in
`r`; a panic of `copyPanic` becomes `err` and leaves `ok = false`. -/
def CopySpecific (r : List Nat) (sectionType : Nat) :
    Option (Bool × Option StreamError × List Nat × List Nat) :=
  match copyPanic r sectionType with
  | none => none
  | some (.ok ok, w, r) => some (ok, none, w, r)
  | some (.error e, w, r) => some (false, some e, w, r)

def CopyCodeSection (r : List Nat) : Option (Bool × Option StreamError × List Nat × List Nat) :=
  CopySpecific r SectionCode

/-- Besides `err`, the bytes written to `ioutil.Discard` and the bytes left in
`r`. -/
def DiscardUnknownSections (r : List Nat) :
    Option (Bool × Option StreamError × List Nat × List Nat) :=
  CopySpecific r SectionUnknown

/-- The bytes `enc` are a varuint32 of value `v`: read from any stream that
starts with them, they give `v` and leave the rest. -/
def IsVaruint32 (enc : List Nat) (v : Nat) : Prop :=
  ∀ rest, Varuint32 (enc ++ rest) = (.ok v, rest)

/-- A stream of zero or more complete unknown sections: id 0, a varuint32
payload length and that many payload bytes. -/
inductive UnknownSections : List Nat → Prop where
  | nil : UnknownSections []
  | cons (enc payload rest : List Nat) :
      IsVaruint32 enc payload.length → UnknownSections rest →
      UnknownSections (SectionUnknown :: (enc ++ (payload ++ rest)))

/-! ## Auxiliary facts -/

theorem int64_eq_self (v : Int) (h1 : -9223372036854775808 ≤ v) (h2 : v < 9223372036854775808) :
    int64 v = v := by
  unfold int64; omega

theorem ImmValue_I32_range (x : Operand) :
    -2147483648 ≤ x.ImmValue I32 ∧ x.ImmValue I32 < 2147483648 := by
  simp only [Operand.ImmValue, I32, int32]; omega

theorem lookup_some_mem {β : Type} (name : String) (b : β) :
    ∀ l : List (String × β), l.lookup name = some b → (name, b) ∈ l
  | [], h => by simp [List.lookup] at h
  | (k, v) :: l, h => by
    by_cases hk : name = k
    · subst hk
      simp [List.lookup] at h
      simp [h]
    · have hb : (name == k) = false := by simpa using hk
      simp only [List.lookup, hb] at h
      exact List.mem_cons_of_mem _ (lookup_some_mem name b l h)

theorem lookup_ok_mem (as : memoryAccesses) (t : T) (name : String) (acc : memoryAccess)
    (h : as.lookup t name = .ok acc) :
    (t.Category = .Int ∧ (name, acc) ∈ as.integer) ∨
    (t.Category = .Float ∧ (name, acc) ∈ as.float) := by
  unfold memoryAccesses.lookup at h
  cases hc : t.Category <;> simp only [hc] at h
  · left
    cases hl : as.integer.lookup name with
    | none => simp [hl] at h
    | some a =>
      simp only [hl, Except.ok.injEq] at h
      subst h
      exact ⟨rfl, lookup_some_mem _ _ _ hl⟩
  · right
    cases hl : as.float.lookup name with
    | none => simp [hl] at h
    | some a =>
      simp only [hl, Except.ok.injEq] at h
      subst h
      exact ⟨rfl, lookup_some_mem _ _ _ hl⟩
  · cases h

theorem memoryLoads_truncate (t : T) (name : String) (ld : memoryAccess)
    (h : memoryLoads.lookup t name = .ok ld) :
    ld.truncate = 0 ∨ ld.truncate = 1 ∨ ld.truncate = 2 ∨ ld.truncate = 4 := by
  rcases lookup_ok_mem _ _ _ _ h with ⟨-, hm⟩ | ⟨-, hm⟩
  · have hv : ld ∈ memoryLoads.integer.map Prod.snd := List.mem_map_of_mem _ hm
    simp [memoryLoads] at hv
    rcases hv with hv | hv | hv | hv | hv | hv | hv <;> simp [hv]
  · have hv : ld ∈ memoryLoads.float.map Prod.snd := List.mem_map_of_mem _ hm
    simp [memoryLoads] at hv
    simp [hv]

theorem memoryStores_truncate (t : T) (name : String) (st : memoryAccess)
    (h : memoryStores.lookup t name = .ok st) :
    st.truncate = 0 ∨ st.truncate = 1 ∨ st.truncate = 2 ∨ st.truncate = 4 := by
  rcases lookup_ok_mem _ _ _ _ h with ⟨-, hm⟩ | ⟨-, hm⟩
  · have hv : st ∈ memoryStores.integer.map Prod.snd := List.mem_map_of_mem _ hm
    simp [memoryStores] at hv
    rcases hv with hv | hv | hv | hv <;> simp [hv]
  · have hv : st ∈ memoryStores.float.map Prod.snd := List.mem_map_of_mem _ hm
    simp [memoryStores] at hv
    simp [hv]

theorem accessSize_range (t : T) (truncate : Int)
    (h : truncate = 0 ∨ truncate = 1 ∨ truncate = 2 ∨ truncate = 4) :
    1 ≤ accessSize t truncate ∧ accessSize t truncate ≤ 8 := by
  unfold accessSize
  cases hs : t.Size <;> rcases h with h | h | h | h <;> subst h <;> simp [Size.toInt]



theorem end_eq (x : Operand) (s : Int) (h1 : 1 ≤ s) (h2 : s ≤ 8) :
    int64 (x.ImmValue I32 + s) = x.ImmValue I32 + s := by
  have hr := ImmValue_I32_range x
  apply int64_eq_self <;> omega

theorem opMemoryAddress_trap (mach : X86) (code : RegCoder) (t : T) (x : Operand) (truncate : Int)
    (hx : x.Storage = .Imm)
    (h : x.ImmValue I32 < 0 ∨ int64 (x.ImmValue I32 + accessSize t truncate) > 2147483648) :
    opMemoryAddress mach code t x truncate = ([.op .JmpRel code.MemoryOutOfBounds], 0, 0, true) := by
  simp only [opMemoryAddress, hx]
  rw [if_pos (by simpa using h)]

theorem opMemoryAddress_safe (mach : X86) (code : RegCoder) (t : T) (x : Operand) (truncate : Int)
    (hx : x.Storage = .Imm) (h0 : 0 ≤ x.ImmValue I32)
    (h1 : int64 (x.ImmValue I32 + accessSize t truncate) ≤ 2147483648)
    (h2 : int64 (x.ImmValue I32 + accessSize t truncate) ≤ code.MinMemorySize) :
    opMemoryAddress mach code t x truncate = ([], mach.regMemoryPtr, x.ImmValue I32, false) := by
  simp only [opMemoryAddress, hx]
  rw [if_neg (by omega), if_pos h2]

theorem opMemoryAddress_checked (mach : X86) (code : RegCoder) (t : T) (x : Operand)
    (truncate : Int)
    (hx : x.Storage = .Imm) (h0 : 0 ≤ x.ImmValue I32)
    (h1 : int64 (x.ImmValue I32 + accessSize t truncate) ≤ 2147483648)
    (h2 : code.MinMemorySize < int64 (x.ImmValue I32 + accessSize t truncate)) :
    opMemoryAddress mach code t x truncate =
      ([.opFromIndirect .Lea I64 mach.regScratch 0 mach.NoIndex mach.regMemoryPtr
          (int64 (x.ImmValue I32 + accessSize t truncate)),
        .opFromReg .Cmp I64 mach.regScratch mach.regMemoryLimit,
        .op .Jg code.MemoryOutOfBounds],
       mach.regScratch, -accessSize t truncate, false) := by
  simp only [opMemoryAddress, hx]
  rw [if_neg (by omega), if_neg (by omega)]

theorem opMemoryAddress_reg (mach : X86) (code : RegCoder) (t : T) (x : Operand)
    (truncate : Int) (hx : x.Storage ≠ .Imm) :
    opMemoryAddress mach code t x truncate =
      ([.opBorrowScratchReg I32 x]
        ++ (if (code.opBorrowScratchReg I32 x).2.1 ≠ .ZeroExt then
              [.opFromReg .Mov I32 (code.opBorrowScratchReg I32 x).1
                (code.opBorrowScratchReg I32 x).1] else [])
        ++ [.opFromIndirect .Lea I64 mach.regScratch 0 (code.opBorrowScratchReg I32 x).1
              mach.regMemoryPtr (accessSize t truncate),
            .opFromReg .Cmp I64 mach.regScratch mach.regMemoryLimit,
            .op .Jg code.MemoryOutOfBounds]
        ++ (if (code.opBorrowScratchReg I32 x).2.2 then
              [.FreeReg I32 (code.opBorrowScratchReg I32 x).1] else []),
       mach.regScratch, -accessSize t truncate, false) := by
  unfold opMemoryAddress
  cases hs : x.Storage <;> simp_all

theorem LoadOp_eq (mach : X86) (code : RegCoder) (name : String) (t : T) (x : Operand)
    (ld : memoryAccess) (h : memoryLoads.lookup t name = .ok ld) :
    LoadOp mach code name t x =
      .ok (if (opMemoryAddress mach code t x ld.truncate).2.2.2 then
          ((opMemoryAddress mach code t x ld.truncate).1, ImmOperand t 0, true)
        else
          ((opMemoryAddress mach code t x ld.truncate).1 ++
            [.opFromIndirect ld.insn t mach.regResult 0 mach.NoIndex
              (opMemoryAddress mach code t x ld.truncate).2.1
              (opMemoryAddress mach code t x ld.truncate).2.2.1],
           TempRegOperand mach.regResult ld.ext, false)) := by
  simp only [LoadOp, h, bind, Except.bind]
  split <;> rfl

theorem StoreOp_eq (mach : X86) (code : RegCoder) (name : String) (t : T) (a b : Operand)
    (st : memoryAccess) (h : memoryStores.lookup t name = .ok st) :
    StoreOp mach code name t a b =
      .ok (if (opMemoryAddress mach code t a st.truncate).2.2.2 then
          ((opMemoryAddress mach code t a st.truncate).1, true)
        else
          ((opMemoryAddress mach code t a st.truncate).1 ++
            (if b.Storage = .Imm then
              match storeImmBits st.truncate (b.ImmValue t) with
              | some bits =>
                [.opImmToIndirect st.insn
                  (if st.truncate ≥ 1 ∧ st.truncate ≤ 4 then I32 else t)
                  (opMemoryAddress mach code t a st.truncate).2.1
                  (opMemoryAddress mach code t a st.truncate).2.2.1 bits]
              | none =>
                storeFromReg mach code st t
                  (if st.truncate ≥ 1 ∧ st.truncate ≤ 4 then I32 else t) b
                  (opMemoryAddress mach code t a st.truncate).2.1
                  (opMemoryAddress mach code t a st.truncate).2.2.1
            else
              storeFromReg mach code st t
                (if st.truncate ≥ 1 ∧ st.truncate ≤ 4 then I32 else t) b
                (opMemoryAddress mach code t a st.truncate).2.1
                (opMemoryAddress mach code t a st.truncate).2.2.1), false)) := by
  simp only [StoreOp, h, bind, Except.bind]
  by_cases hd : (opMemoryAddress mach code t a st.truncate).2.2.2 = true
  · simp only [hd, if_true]; rfl
  · simp only [hd]
    by_cases hb : b.Storage = .Imm
    · simp only [hb, if_true]
      cases hs : storeImmBits st.truncate (b.ImmValue t) <;> simp [pure, Except.pure]
    · simp [hb, pure, Except.pure]

/-- C1, as stated, fails: with a minimum memory of 4 GiB the constant address
2147483647 of a 4-byte `load` satisfies `0 ≤ A` and `A + S ≤ M`, yet the
resolver emits the jump to the trap and reports a deadend. -/
theorem static_elision_counterexample :
    (ImmOperand I32 2147483647).Storage = .Imm ∧
    0 ≤ (ImmOperand I32 2147483647).ImmValue I32 ∧
    (ImmOperand I32 2147483647).ImmValue I32 + accessSize I32 0 ≤ code4G.MinMemorySize ∧
    memoryLoads.lookup I32 "load" = .ok ⟨0, .ZeroExt, .Mov⟩ ∧
    opMemoryAddress mach0 code4G I32 (ImmOperand I32 2147483647) 0 =
      ([.op .JmpRel 4096], 0, 0, true) ∧
    LoadOp mach0 code4G "load" I32 (ImmOperand I32 2147483647) =
      .ok ([.op .JmpRel 4096], ImmOperand I32 0, true) :=
  ⟨rfl, by decide, by decide, rfl, rfl, rfl⟩

/-- C1 (amended): for a constant address `A ≥ 0` and the access size `S` of a
table entry with `A + S ≤ minimum memory size` and `A + S ≤ 2^31`,
`opMemoryAddress` emits nothing and returns the memory base register with
displacement `A` and `deadend = false`; `LoadOp` then emits only the load from
`[memoryBase + A]`, and the only instruction `StoreOp` emits is the store to
`[memoryBase + A]`. -/
theorem static_elision (mach : X86) (code : RegCoder) (t : T) (x : Operand)
    (hx : x.Storage = .Imm) (hA : 0 ≤ x.ImmValue I32) :
    (∀ name ld, memoryLoads.lookup t name = .ok ld →
      x.ImmValue I32 + accessSize t ld.truncate ≤ code.MinMemorySize →
      x.ImmValue I32 + accessSize t ld.truncate ≤ 2147483648 →
      opMemoryAddress mach code t x ld.truncate =
        ([], mach.regMemoryPtr, x.ImmValue I32, false) ∧
      LoadOp mach code name t x =
        .ok ([.opFromIndirect ld.insn t mach.regResult 0 mach.NoIndex mach.regMemoryPtr
                (x.ImmValue I32)],
             TempRegOperand mach.regResult ld.ext, false)) ∧
    (∀ name st b, memoryStores.lookup t name = .ok st →
      x.ImmValue I32 + accessSize t st.truncate ≤ code.MinMemorySize →
      x.ImmValue I32 + accessSize t st.truncate ≤ 2147483648 →
      opMemoryAddress mach code t x st.truncate =
        ([], mach.regMemoryPtr, x.ImmValue I32, false) ∧
      ∃ tr, StoreOp mach code name t x b = .ok (tr, false) ∧
        ((∃ ty bits, tr.filter Emit.isInsn =
            [.opImmToIndirect st.insn ty mach.regMemoryPtr (x.ImmValue I32) bits]) ∨
         (∃ ty r, tr.filter Emit.isInsn =
            [.opToIndirect st.insn ty r 0 mach.NoIndex mach.regMemoryPtr (x.ImmValue I32)]))) := by
  refine ⟨?_, ?_⟩
  · intro name ld hl hM hC
    have hs := accessSize_range t _ (memoryLoads_truncate t name ld hl)
    have he := end_eq x _ hs.1 hs.2
    have hm := opMemoryAddress_safe mach code t x ld.truncate hx hA (by omega) (by omega)
    refine ⟨hm, ?_⟩
    rw [LoadOp_eq mach code name t x ld hl, hm]
    simp
  · intro name st b hl hM hC
    have hs := accessSize_range t _ (memoryStores_truncate t name st hl)
    have he := end_eq x _ hs.1 hs.2
    have hm := opMemoryAddress_safe mach code t x st.truncate hx hA (by omega) (by omega)
    refine ⟨hm, ?_⟩
    rw [StoreOp_eq mach code name t x b st hl, hm]
    refine ⟨_, rfl, ?_⟩
    by_cases hb : b.Storage = .Imm
    · cases hv : storeImmBits st.truncate (b.ImmValue t) with
      | some bits =>
        left
        exact ⟨if st.truncate ≥ 1 ∧ st.truncate ≤ 4 then I32 else t, bits,
          by simp [hb, hv, Emit.isInsn]⟩
      | none =>
        right
        refine ⟨if st.truncate ≥ 1 ∧ st.truncate ≤ 4 then I32 else t,
        (code.opBorrowResultReg t b).1, ?_⟩
        cases ho : (code.opBorrowResultReg t b).2.2 <;>
          simp [hb, hv, storeFromReg, ho, Emit.isInsn]
    · right
      refine ⟨if st.truncate ≥ 1 ∧ st.truncate ≤ 4 then I32 else t,
        (code.opBorrowResultReg t b).1, ?_⟩
      cases ho : (code.opBorrowResultReg t b).2.2 <;>
        simp [hb, storeFromReg, ho, Emit.isInsn]

/-- A run of `static_elision`: `load i32` at the constant address 100 with 64 KiB
of guaranteed memory (scenario 1). -/
theorem static_elision_witness :
    opMemoryAddress mach0 code0 I32 (ImmOperand I32 100) 0 = ([], 14, 100, false) ∧
    LoadOp mach0 code0 "load" I32 (ImmOperand I32 100) =
      .ok ([.opFromIndirect .Mov I32 0 0 4 14 100], TempRegOperand 0 .ZeroExt, false) :=
  (static_elision mach0 code0 I32 (ImmOperand I32 100) (by decide) (by decide)).1
    "load" ⟨0, .ZeroExt, .Mov⟩ rfl (by decide) (by decide)

/-- C2: for a constant address `A` and the access size `S` of a table entry with
`A < 0` or `A + S > 2^31`, `LoadOp` and `StoreOp` emit exactly one instruction,
the unconditional `JmpRel` to the MemoryOutOfBounds trap address (so no load or
store and no `Cmp`/`Jg`), return `deadend = true`, and the result of `LoadOp`
is the immediate operand of value 0 of type `t`. -/
theorem static_trap (mach : X86) (code : RegCoder) (t : T) (x : Operand)
    (hx : x.Storage = .Imm) :
    (∀ name ld, memoryLoads.lookup t name = .ok ld →
      (x.ImmValue I32 < 0 ∨ x.ImmValue I32 + accessSize t ld.truncate > 2147483648) →
      LoadOp mach code name t x =
        .ok ([.op .JmpRel code.MemoryOutOfBounds], ImmOperand t 0, true)) ∧
    (∀ name st b, memoryStores.lookup t name = .ok st →
      (x.ImmValue I32 < 0 ∨ x.ImmValue I32 + accessSize t st.truncate > 2147483648) →
      StoreOp mach code name t x b = .ok ([.op .JmpRel code.MemoryOutOfBounds], true)) ∧
    (ImmOperand t 0).Storage = .Imm ∧ (ImmOperand t 0).ImmValue t = 0 := by
  refine ⟨?_, ?_, rfl, ?_⟩
  · intro name ld hl h
    have hs := accessSize_range t _ (memoryLoads_truncate t name ld hl)
    have he := end_eq x _ hs.1 hs.2
    have hm := opMemoryAddress_trap mach code t x ld.truncate hx (by omega)
    rw [LoadOp_eq mach code name t x ld hl, hm]
    simp
  · intro name st b hl h
    have hs := accessSize_range t _ (memoryStores_truncate t name st hl)
    have he := end_eq x _ hs.1 hs.2
    have hm := opMemoryAddress_trap mach code t x st.truncate hx (by omega)
    rw [StoreOp_eq mach code name t x b st hl, hm]
    simp
  · cases hs : t.Size <;> simp [Operand.ImmValue, ImmOperand, hs, int32, int64]

/-- A run of `static_trap`: `store32` at the constant address -5 (scenario 3). -/
theorem static_trap_witness :
    StoreOp mach0 code0 "store32" I32 (ImmOperand I32 (-5)) (ImmOperand I32 1) =
      .ok ([.op .JmpRel 4096], true) :=
  (static_trap mach0 code0 I32 (ImmOperand I32 (-5)) rfl).2.1
    "store32" ⟨4, .NoExt, .Mov⟩ (ImmOperand I32 1) rfl (Or.inl (by decide))

theorem CheckedOnce_append (mach : X86) (code : RegCoder) (pre mid rest : List Emit) (m : Emit)
    (hpre : ∀ e ∈ pre, e.isCheck = false ∧ e.isMemoryInsn = false)
    (hmid : ∀ e ∈ mid, e.isCheck = false ∧ e.isMemoryInsn = false)
    (hrest : ∀ e ∈ rest, e.isCheck = false)
    (hm : rest.filter Emit.isMemoryInsn = [m]) :
    CheckedOnce mach code
      ((pre ++ [.opFromReg .Cmp I64 mach.regScratch mach.regMemoryLimit,
                .op .Jg code.MemoryOutOfBounds] ++ mid) ++ rest) := by
  refine ⟨pre, mid ++ rest, m, by simp, hpre, ?_, ?_⟩
  · intro e he
    rcases List.mem_append.1 he with h | h
    · exact (hmid e h).1
    · exact hrest e h
  · rw [List.filter_append, hm]
    have : mid.filter Emit.isMemoryInsn = [] := by
      apply List.filter_eq_nil_iff.2
      intro e he
      simp [(hmid e he).2]
    rw [this]; rfl

/-- Under the conditions of the dynamic path the resolver's events split around
the bounds check, with no load or store among them, and the resolver returns
the scratch register, displacement `-size` and no deadend. -/
theorem opMemoryAddress_dynamic (mach : X86) (code : RegCoder) (t : T) (x : Operand)
    (truncate : Int) (hs : 1 ≤ accessSize t truncate ∧ accessSize t truncate ≤ 8)
    (h : x.Storage ≠ .Imm ∨
      (0 ≤ x.ImmValue I32 ∧ code.MinMemorySize < x.ImmValue I32 + accessSize t truncate ∧
        x.ImmValue I32 + accessSize t truncate ≤ 2147483648)) :
    ∃ pre mid,
      opMemoryAddress mach code t x truncate =
        (pre ++ [.opFromReg .Cmp I64 mach.regScratch mach.regMemoryLimit,
                 .op .Jg code.MemoryOutOfBounds] ++ mid,
         mach.regScratch, -accessSize t truncate, false) ∧
      (∀ e ∈ pre, e.isCheck = false ∧ e.isMemoryInsn = false) ∧
      (∀ e ∈ mid, e.isCheck = false ∧ e.isMemoryInsn = false) := by
  by_cases hx : x.Storage = .Imm
  · rcases h with h | ⟨h0, h1, h2⟩
    · exact absurd hx h
    · have he := end_eq x _ hs.1 hs.2
      refine ⟨[.opFromIndirect .Lea I64 mach.regScratch 0 mach.NoIndex mach.regMemoryPtr
          (int64 (x.ImmValue I32 + accessSize t truncate))], [], ?_, ?_, ?_⟩
      · rw [opMemoryAddress_checked mach code t x truncate hx h0 (by omega) (by omega)]
        rfl
      · intro e he'
        simp at he'
        subst he'
        simp [Emit.isCheck, Emit.isMemoryInsn]
      · intro e he'
        simp at he'
  · refine ⟨[.opBorrowScratchReg I32 x]
        ++ (if (code.opBorrowScratchReg I32 x).2.1 ≠ .ZeroExt then
              [.opFromReg .Mov I32 (code.opBorrowScratchReg I32 x).1
                (code.opBorrowScratchReg I32 x).1] else [])
        ++ [.opFromIndirect .Lea I64 mach.regScratch 0 (code.opBorrowScratchReg I32 x).1
              mach.regMemoryPtr (accessSize t truncate)],
      (if (code.opBorrowScratchReg I32 x).2.2 then
              [.FreeReg I32 (code.opBorrowScratchReg I32 x).1] else []), ?_, ?_, ?_⟩
    · rw [opMemoryAddress_reg mach code t x truncate hx]
      simp
    · by_cases hz : (code.opBorrowScratchReg I32 x).2.1 = .ZeroExt <;>
        simp [hz, Emit.isCheck, Emit.isMemoryInsn]
    · cases ho : (code.opBorrowScratchReg I32 x).2.2 <;>
        simp [Emit.isCheck, Emit.isMemoryInsn]

theorem memoryLoads_insn (t : T) (name : String) (ld : memoryAccess)
    (h : memoryLoads.lookup t name = .ok ld) : ld.insn ≠ .Lea := by
  rcases lookup_ok_mem _ _ _ _ h with ⟨-, hm⟩ | ⟨-, hm⟩
  · have hv : ld ∈ memoryLoads.integer.map Prod.snd := List.mem_map_of_mem _ hm
    simp [memoryLoads] at hv
    rcases hv with hv | hv | hv | hv | hv | hv | hv <;> simp [hv]
  · have hv : ld ∈ memoryLoads.float.map Prod.snd := List.mem_map_of_mem _ hm
    simp [memoryLoads] at hv
    simp [hv]

/-- The events of the value part of `StoreOp` hold no comparison or jump and
exactly one store instruction. -/
theorem storeFromReg_shape (mach : X86) (code : RegCoder) (st : memoryAccess) (t opType : T)
    (b : Operand) (baseReg : R) (disp : Int) :
    (∀ e ∈ storeFromReg mach code st t opType b baseReg disp, e.isCheck = false) ∧
    (storeFromReg mach code st t opType b baseReg disp).filter Emit.isMemoryInsn =
      [.opToIndirect st.insn opType (code.opBorrowResultReg t b).1 0 mach.NoIndex baseReg disp] := by
  cases ho : (code.opBorrowResultReg t b).2.2 <;>
    simp [storeFromReg, ho, Emit.isCheck, Emit.isMemoryInsn]

/-- C3: for every address operand that is not an immediate, whatever the
minimum memory size, and for every constant address `A ≥ 0` with
`minimum memory size < A + S ≤ 2^31` (in particular `< 2^31`), `LoadOp` and
`StoreOp` return `deadend = false` and their events contain exactly one
comparison, `Cmp scratch, memoryLimit`, immediately followed by the only jump,
`Jg` to the MemoryOutOfBounds trap address, both before the single load or
store instruction. -/
theorem dynamic_check_mandatory (mach : X86) (code : RegCoder) (t : T) (x : Operand) :
    (∀ name ld, memoryLoads.lookup t name = .ok ld →
      (x.Storage ≠ .Imm ∨
        (0 ≤ x.ImmValue I32 ∧
          code.MinMemorySize < x.ImmValue I32 + accessSize t ld.truncate ∧
          x.ImmValue I32 + accessSize t ld.truncate ≤ 2147483648)) →
      ∃ tr res, LoadOp mach code name t x = .ok (tr, res, false) ∧ CheckedOnce mach code tr) ∧
    (∀ name st b, memoryStores.lookup t name = .ok st →
      (x.Storage ≠ .Imm ∨
        (0 ≤ x.ImmValue I32 ∧
          code.MinMemorySize < x.ImmValue I32 + accessSize t st.truncate ∧
          x.ImmValue I32 + accessSize t st.truncate ≤ 2147483648)) →
      ∃ tr, StoreOp mach code name t x b = .ok (tr, false) ∧ CheckedOnce mach code tr) := by
  refine ⟨?_, ?_⟩
  · intro name ld hl h
    have hs := accessSize_range t _ (memoryLoads_truncate t name ld hl)
    obtain ⟨pre, mid, hm, hpre, hmid⟩ := opMemoryAddress_dynamic mach code t x ld.truncate hs h
    rw [LoadOp_eq mach code name t x ld hl, hm]
    refine ⟨_, _, rfl, ?_⟩
    exact CheckedOnce_append mach code pre mid
      [.opFromIndirect ld.insn t mach.regResult 0 mach.NoIndex mach.regScratch
        (-accessSize t ld.truncate)] _ hpre hmid
      (by simp [Emit.isCheck]) (by simp [Emit.isMemoryInsn, memoryLoads_insn t name ld hl]; rfl)
  · intro name st b hl h
    have hs := accessSize_range t _ (memoryStores_truncate t name st hl)
    obtain ⟨pre, mid, hm, hpre, hmid⟩ := opMemoryAddress_dynamic mach code t x st.truncate hs h
    rw [StoreOp_eq mach code name t x b st hl, hm]
    refine ⟨_, rfl, ?_⟩
    by_cases hb : b.Storage = .Imm
    · cases hv : storeImmBits st.truncate (b.ImmValue t) with
      | some bits =>
        simp only [hb, if_true]
        exact CheckedOnce_append mach code pre mid
          [.opImmToIndirect st.insn (if st.truncate ≥ 1 ∧ st.truncate ≤ 4 then I32 else t)
            mach.regScratch (-accessSize t st.truncate) bits] _ hpre hmid
          (by simp [Emit.isCheck]) (by simp [Emit.isMemoryInsn]; rfl)
      | none =>
        simp only [hb, if_true]
        exact CheckedOnce_append mach code pre mid _ _ hpre hmid
          (storeFromReg_shape mach code st t _ b _ _).1
          (storeFromReg_shape mach code st t _ b _ _).2
    · simp only [hb, if_false]
      exact CheckedOnce_append mach code pre mid _ _ hpre hmid
        (storeFromReg_shape mach code st t _ b _ _).1
        (storeFromReg_shape mach code st t _ b _ _).2

/-- A run of `dynamic_check_mandatory`: `store f64` through a register-held
address (scenario 5). -/
theorem dynamic_check_mandatory_witness :
    ∃ tr, StoreOp mach0 code0 "store" F64 (TempRegOperand 3 .NoExt) (TempRegOperand 5 .NoExt) =
      .ok (tr, false) ∧ CheckedOnce mach0 code0 tr :=
  (dynamic_check_mandatory mach0 code0 F64 (TempRegOperand 3 .NoExt)).2
    "store" ⟨0, .NoExt, .binaryInsn .MovsSSE .MovImm⟩ (TempRegOperand 5 .NoExt) rfl
    (Or.inl (by decide))

/-- The resolver emits no load or store, and besides instructions it only
borrows the address operand and releases the register it borrowed for it. -/
theorem opMemoryAddress_events (mach : X86) (code : RegCoder) (t : T) (x : Operand)
    (truncate : Int) :
    ∀ e ∈ (opMemoryAddress mach code t x truncate).1,
      e.isMemoryInsn = false ∧
      (e.isInsn = true ∨ e = .opBorrowScratchReg I32 x ∨
        e = .FreeReg I32 (code.opBorrowScratchReg I32 x).1) := by
  by_cases hx : x.Storage = .Imm
  · simp only [opMemoryAddress, hx]
    split_ifs <;> simp [Emit.isMemoryInsn, Emit.isInsn]
  · rw [opMemoryAddress_reg mach code t x truncate hx]
    by_cases hz : (code.opBorrowScratchReg I32 x).2.1 = .ZeroExt <;>
      cases ho : (code.opBorrowScratchReg I32 x).2.2 <;>
      simp [hz, Emit.isMemoryInsn, Emit.isInsn]

theorem opMemoryAddress_deadend (mach : X86) (code : RegCoder) (t : T) (x : Operand)
    (truncate : Int) (h : (opMemoryAddress mach code t x truncate).2.2.2 = true) :
    opMemoryAddress mach code t x truncate = ([.op .JmpRel code.MemoryOutOfBounds], 0, 0, true) := by
  by_cases hx : x.Storage = .Imm
  · simp only [opMemoryAddress, hx] at h ⊢
    split_ifs at h ⊢
    simp_all
  · rw [opMemoryAddress_reg mach code t x truncate hx] at h
    simp at h

theorem filter_isMemoryInsn_address (mach : X86) (code : RegCoder) (t : T) (x : Operand)
    (truncate : Int) :
    (opMemoryAddress mach code t x truncate).1.filter Emit.isMemoryInsn = [] := by
  apply List.filter_eq_nil_iff.2
  intro e he
  simp [(opMemoryAddress_events mach code t x truncate e he).1]

/-- With the truncation widths of the table (bytes: 0, 1, 2, 4) the three
truncating cases of the `switch` are never taken. -/
theorem storeImmBits_table (truncate value : Int)
    (h : truncate = 0 ∨ truncate = 1 ∨ truncate = 2 ∨ truncate = 4) :
    storeImmBits truncate value =
      if -2147483648 ≤ value ∧ value < 2147483648 then some value else none := by
  unfold storeImmBits
  rcases h with h | h | h | h <;> (subst h; simp)

/-- C4, the code at the failing input: `store8` of the constant 300 at the
constant address 0 passes the immediate 300 to the immediate-to-memory store,
while 300 reduced to 8 bits is 44. -/
theorem store8_immediate_not_truncated :
    StoreOp mach0 code0 "store8" I32 (ImmOperand I32 0) (ImmOperand I32 300) =
      .ok ([.opImmToIndirect .Mov8 I32 14 0 300], false) ∧
    int8 300 = 44 ∧ storeImmBits 1 300 = some 300 ∧ storeImmBits 8 300 = some 44 :=
  ⟨rfl, by decide, by decide, by decide⟩

/-- C5, the code at the failing input: `store8` of the `I64` constant 2^32 at the
constant address 0 borrows a register for the value, emits the
register-to-memory store and frees the register; no immediate store is
emitted. -/
theorem store8_wide_constant_uses_register :
    StoreOp mach0 code0 "store8" I64 (ImmOperand I32 0) (ImmOperand I64 4294967296) =
      .ok ([.opBorrowResultReg I64 (ImmOperand I64 4294967296),
            .opToIndirect .Mov8 I32 1 0 4 14 0,
            .FreeReg I64 1], false) ∧
    storeImmBits 1 4294967296 = none :=
  ⟨rfl, by decide⟩

theorem lookup_store (t : T) (st : memoryAccess)
    (h : memoryStores.lookup t "store" = .ok st) :
    st.truncate = 0 := by
  unfold memoryAccesses.lookup at h
  cases hc : t.Category <;> simp [hc, memoryStores, List.lookup] at h <;> simp [← h]

/-- C6: for the untruncated `store` with a constant value `v` and an address that
is not a deadend, `StoreOp` emits, after the events of the address resolver,
the immediate-to-memory store of `v` when `-2^31 ≤ v < 2^31`, and otherwise
borrows a register for the value, emits the register-to-memory store and
releases the register if it owns it; the immediate store is emitted if and only
if `v` is in that range, and in both cases the events hold exactly one store
instruction. -/
theorem full_width_constant_store (mach : X86) (code : RegCoder) (t : T) (a b : Operand)
    (st : memoryAccess) (hl : memoryStores.lookup t "store" = .ok st)
    (hb : b.Storage = .Imm)
    (hd : (opMemoryAddress mach code t a st.truncate).2.2.2 = false) :
    ∃ tr, StoreOp mach code "store" t a b = .ok (tr, false) ∧
      tr = (opMemoryAddress mach code t a st.truncate).1 ++
        (if -2147483648 ≤ b.ImmValue t ∧ b.ImmValue t < 2147483648 then
          [.opImmToIndirect st.insn t (opMemoryAddress mach code t a st.truncate).2.1
            (opMemoryAddress mach code t a st.truncate).2.2.1 (b.ImmValue t)]
        else
          [.opBorrowResultReg t b,
           .opToIndirect st.insn t (code.opBorrowResultReg t b).1 0 mach.NoIndex
            (opMemoryAddress mach code t a st.truncate).2.1
            (opMemoryAddress mach code t a st.truncate).2.2.1]
            ++ (if (code.opBorrowResultReg t b).2.2 then
                  [.FreeReg t (code.opBorrowResultReg t b).1] else [])) ∧
      ((∃ ty base disp bits, Emit.opImmToIndirect st.insn ty base disp bits ∈ tr) ↔
        (-2147483648 ≤ b.ImmValue t ∧ b.ImmValue t < 2147483648)) ∧
      ∃ m, tr.filter Emit.isMemoryInsn = [m] := by
  have h0 := lookup_store t st hl
  have hop : (if st.truncate ≥ 1 ∧ st.truncate ≤ 4 then I32 else t) = t := by simp [h0]
  have hbits := storeImmBits_table st.truncate (b.ImmValue t) (Or.inl h0)
  have hev := opMemoryAddress_events mach code t a st.truncate
  have hfil := filter_isMemoryInsn_address mach code t a st.truncate
  rw [StoreOp_eq mach code "store" t a b st hl]
  refine ⟨_, by simp only [hd]; rfl, ?_⟩
  by_cases hr : -2147483648 ≤ b.ImmValue t ∧ b.ImmValue t < 2147483648
  · rw [hbits]
    simp only [hb, hr, hop, if_true, and_self]
    refine ⟨trivial, ?_, ?_⟩
    · simp only [iff_true]
      exact ⟨_, _, _, _, List.mem_append_right _ (List.mem_singleton.2 rfl)⟩
    · rw [List.filter_append, hfil]
      exact ⟨_, by simp [Emit.isMemoryInsn]; rfl⟩
  · rw [hbits]
    simp only [hb, hr, hop, if_true, if_false]
    refine ⟨by simp [storeFromReg], ?_, ?_⟩
    · simp only [iff_false, not_exists]
      intro ty base disp bits hmem
      rcases List.mem_append.1 hmem with hm | hm
      · have := (hev _ hm).1
        simp [Emit.isMemoryInsn] at this
      · cases ho : (code.opBorrowResultReg t b).2.2 <;> simp [storeFromReg, ho] at hm
    · rw [List.filter_append, hfil]
      exact ⟨_, by simpa using (storeFromReg_shape mach code st t t b _ _).2⟩



/-- A run of `full_width_constant_store`: `store i64` of the constant 2^32, which
does not fit a signed 32-bit immediate. -/
theorem full_width_constant_store_witness :
    ∃ tr, StoreOp mach0 code0 "store" I64 (ImmOperand I32 0) (ImmOperand I64 4294967296) =
        .ok (tr, false) ∧
      ((∃ ty base disp bits, Emit.opImmToIndirect .Mov ty base disp bits ∈ tr) ↔
        (-2147483648 ≤ (ImmOperand I64 4294967296).ImmValue I64 ∧
          (ImmOperand I64 4294967296).ImmValue I64 < 2147483648)) ∧
      ∃ m, tr.filter Emit.isMemoryInsn = [m] := by
  obtain ⟨tr, h1, _, h3, h4⟩ := full_width_constant_store mach0 code0 I64 (ImmOperand I32 0)
    (ImmOperand I64 4294967296) ⟨0, .NoExt, .Mov⟩ rfl rfl rfl
  exact ⟨tr, h1, h3, h4⟩

theorem LoadOp_live (mach : X86) (code : RegCoder) (name : String) (t : T) (x : Operand)
    (ld : memoryAccess) (h : memoryLoads.lookup t name = .ok ld)
    (hd : (opMemoryAddress mach code t x ld.truncate).2.2.2 = false) :
    LoadOp mach code name t x =
      .ok ((opMemoryAddress mach code t x ld.truncate).1 ++
            [.opFromIndirect ld.insn t mach.regResult 0 mach.NoIndex
              (opMemoryAddress mach code t x ld.truncate).2.1
              (opMemoryAddress mach code t x ld.truncate).2.2.1],
           TempRegOperand mach.regResult ld.ext, false) := by
  rw [LoadOp_eq mach code name t x ld h]
  simp only [hd]
  rfl

/-- C7, as stated, fails: `load8_s` at the constant address 0 returns a temporary
register operand whose extension tag is `NoExt`, not `SignExt`, and `load8_u`
one whose tag is `NoExt`, not `ZeroExt`. -/
theorem subword_load_tag_counterexample :
    LoadOp mach0 code0 "load8_s" I32 (ImmOperand I32 0) =
      .ok ([.opFromIndirect (.binaryInsn .Movsx8 .NoImmInst) I32 0 0 4 14 0],
           TempRegOperand 0 .NoExt, false) ∧
    (TempRegOperand 0 .NoExt).Ext ≠ .SignExt ∧
    LoadOp mach0 code0 "load8_u" I32 (ImmOperand I32 0) =
      .ok ([.opFromIndirect (.binaryInsn .Movzx8 .NoImmInst) I32 0 0 4 14 0],
           TempRegOperand 0 .NoExt, false) ∧
    (TempRegOperand 0 .NoExt).Ext ≠ .ZeroExt :=
  ⟨rfl, by decide, rfl, by decide⟩

/-- C7 (amended): for every integer type and every address that is not a
deadend, `LoadOp` with `load8_s`, `load8_u`, `load16_s` or `load16_u` returns
`deadend = false` and a temporary register operand on the result register
whose extension tag is `NoExt`, the tag the table declares for these four
entries. -/
theorem subword_load_tag (mach : X86) (code : RegCoder) (name : String) (t : T) (x : Operand)
    (ht : t.Category = .Int)
    (hn : name = "load8_s" ∨ name = "load8_u" ∨ name = "load16_s" ∨ name = "load16_u") :
    ∃ ld, memoryLoads.lookup t name = .ok ld ∧ ld.ext = .NoExt ∧
      ((opMemoryAddress mach code t x ld.truncate).2.2.2 = false →
        ∃ tr, LoadOp mach code name t x = .ok (tr, TempRegOperand mach.regResult .NoExt, false) ∧
          (TempRegOperand mach.regResult .NoExt).Storage = .TempReg ∧
          (TempRegOperand mach.regResult .NoExt).Ext = .NoExt) := by
  have key : ∀ ld, memoryLoads.lookup t name = .ok ld → ld.ext = .NoExt →
      ∃ ld, memoryLoads.lookup t name = .ok ld ∧ ld.ext = .NoExt ∧
        ((opMemoryAddress mach code t x ld.truncate).2.2.2 = false →
          ∃ tr, LoadOp mach code name t x =
              .ok (tr, TempRegOperand mach.regResult .NoExt, false) ∧
            (TempRegOperand mach.regResult .NoExt).Storage = .TempReg ∧
            (TempRegOperand mach.regResult .NoExt).Ext = .NoExt) := by
    intro ld hl he
    refine ⟨ld, hl, he, fun hd => ?_⟩
    rw [LoadOp_live mach code name t x ld hl hd, he]
    exact ⟨_, rfl, rfl, rfl⟩
  rcases hn with hn | hn | hn | hn <;> subst hn
  · exact key ⟨1, .NoExt, .binaryInsn .Movsx8 .NoImmInst⟩
      (by simp [memoryAccesses.lookup, ht, memoryLoads, List.lookup]) rfl
  · exact key ⟨1, .NoExt, .binaryInsn .Movzx8 .NoImmInst⟩
      (by simp [memoryAccesses.lookup, ht, memoryLoads, List.lookup]) rfl
  · exact key ⟨2, .NoExt, .binaryInsn .Movsx16 .NoImmInst⟩
      (by simp [memoryAccesses.lookup, ht, memoryLoads, List.lookup]) rfl
  · exact key ⟨2, .NoExt, .binaryInsn .Movzx16 .NoImmInst⟩
      (by simp [memoryAccesses.lookup, ht, memoryLoads, List.lookup]) rfl

/-- A run of `subword_load_tag`: `load16_s` through a register-held address. -/
theorem subword_load_tag_witness :
    ∃ tr, LoadOp mach0 code0 "load16_s" I32 (TempRegOperand 3 .NoExt) =
      .ok (tr, TempRegOperand 0 .NoExt, false) := by
  obtain ⟨ld, hl, -, h⟩ := subword_load_tag mach0 code0 "load16_s" I32 (TempRegOperand 3 .NoExt)
    rfl (Or.inr (Or.inr (Or.inl rfl)))
  have h2 : memoryLoads.lookup I32 "load16_s" =
      .ok ⟨2, .NoExt, .binaryInsn .Movsx16 .NoImmInst⟩ := rfl
  rw [h2] at hl
  cases hl
  obtain ⟨tr, ht, -⟩ := h rfl
  exact ⟨tr, ht⟩

/-- C8: for every load table entry and every address operand that is not a
deadend, `LoadOp` emits, after the events of `opMemoryAddress` (the bounds
check, if any), the entry's instruction reading `[baseReg + disp]`, as returned
by `opMemoryAddress`, into the result register; this is the only load or store
among the events; and it returns `deadend = false` with a temporary register
operand on the result register whose extension tag is the entry's `ext`. -/
theorem normal_load (mach : X86) (code : RegCoder) (name : String) (t : T) (x : Operand)
    (ld : memoryAccess) (hl : memoryLoads.lookup t name = .ok ld)
    (hd : (opMemoryAddress mach code t x ld.truncate).2.2.2 = false) :
    ∃ tr res, LoadOp mach code name t x = .ok (tr, res, false) ∧
      tr = (opMemoryAddress mach code t x ld.truncate).1 ++
        [.opFromIndirect ld.insn t mach.regResult 0 mach.NoIndex
          (opMemoryAddress mach code t x ld.truncate).2.1
          (opMemoryAddress mach code t x ld.truncate).2.2.1] ∧
      tr.filter Emit.isMemoryInsn =
        [.opFromIndirect ld.insn t mach.regResult 0 mach.NoIndex
          (opMemoryAddress mach code t x ld.truncate).2.1
          (opMemoryAddress mach code t x ld.truncate).2.2.1] ∧
      res = TempRegOperand mach.regResult ld.ext ∧
      res.Storage = .TempReg ∧ res.X = mach.regResult ∧ res.Ext = ld.ext := by
  refine ⟨_, _, LoadOp_live mach code name t x ld hl hd, rfl, ?_, rfl, rfl, rfl, rfl⟩
  rw [List.filter_append, filter_isMemoryInsn_address]
  simp [Emit.isMemoryInsn, memoryLoads_insn t name ld hl]

/-- A run of `normal_load`: `load8_s i32` at the constant address 70000 with
64 KiB of guaranteed memory (scenario 2). -/
theorem normal_load_witness :
    ∃ tr res, LoadOp mach0 code0 "load8_s" I32 (ImmOperand I32 70000) = .ok (tr, res, false) ∧
      tr = [.opFromIndirect .Lea I64 2 0 4 14 70001, .opFromReg .Cmp I64 2 15, .op .Jg 4096,
            .opFromIndirect (.binaryInsn .Movsx8 .NoImmInst) I32 0 0 4 2 (-1)] ∧
      tr.filter Emit.isMemoryInsn =
        [.opFromIndirect (.binaryInsn .Movsx8 .NoImmInst) I32 0 0 4 2 (-1)] ∧
      res = TempRegOperand 0 .NoExt := by
  obtain ⟨tr, res, h1, h2, h3, h4, -⟩ := normal_load mach0 code0 "load8_s" I32
    (ImmOperand I32 70000) ⟨1, .NoExt, .binaryInsn .Movsx8 .NoImmInst⟩ rfl rfl
  exact ⟨tr, res, h1, h2, h3, h4⟩

theorem lookup_category (as : memoryAccesses) (t : T) (name : String)
    (half : List (String × memoryAccess))
    (hh : as.lookup t name =
      match half.lookup name with
      | some a => .ok a
      | none => .error (.name name)) :
    (∀ a, half.lookup name = some a → as.lookup t name = .ok a) ∧
    ((∃ p, as.lookup t name = .error p) ↔ ∀ e ∈ half, e.1 ≠ name) ∧
    (∀ p, as.lookup t name = .error p → p = .name name) := by
  rw [hh]
  cases hl : half.lookup name with
  | none =>
    refine ⟨by simp, ?_, ?_⟩
    · have := List.lookup_eq_none_iff.1 hl
      refine ⟨fun _ => ?_, fun _ => ⟨_, rfl⟩⟩
      intro e he hne
      have := this e he
      simp [hne] at this
    · intro p hp
      cases hp
      rfl
  | some a =>
    refine ⟨by simp, ?_, ?_⟩
    · have hm := lookup_some_mem name a half hl
      constructor
      · rintro ⟨p, hp⟩
        cases hp
      · intro hall
        exact absurd rfl (hall (name, a) hm)
    · intro p hp
      cases hp

/-- C9: for a type of category Int (Float), `lookup` returns the descriptor the
integer (float) half of the table stores under the name, and it panics exactly
when no entry of that half has the name, always with the name as panic value;
for any other category it panics with the type.  In particular the sub-word
load names succeed on `memoryLoads` and the sub-word store names on
`memoryStores` for integer types, and all of them panic with the name for float
types. -/
theorem lookup_fails_exactly_on_absent_names :
    (∀ (as : memoryAccesses) (t : T) (name : String), t.Category = .Int →
      (∀ a, as.integer.lookup name = some a → as.lookup t name = .ok a) ∧
      ((∃ p, as.lookup t name = .error p) ↔ ∀ e ∈ as.integer, e.1 ≠ name) ∧
      (∀ p, as.lookup t name = .error p → p = .name name)) ∧
    (∀ (as : memoryAccesses) (t : T) (name : String), t.Category = .Float →
      (∀ a, as.float.lookup name = some a → as.lookup t name = .ok a) ∧
      ((∃ p, as.lookup t name = .error p) ↔ ∀ e ∈ as.float, e.1 ≠ name) ∧
      (∀ p, as.lookup t name = .error p → p = .name name)) ∧
    (∀ (as : memoryAccesses) (t : T) (name : String), t.Category = .other →
      as.lookup t name = .error (.type t)) ∧
    (∀ (t : T) (name : String),
      name ∈ ["load8_s", "load8_u", "load16_s", "load16_u", "load32_s", "load32_u"] →
      (t.Category = .Int →
        ∃ a, (name, a) ∈ memoryLoads.integer ∧ memoryLoads.lookup t name = .ok a) ∧
      (t.Category = .Float → memoryLoads.lookup t name = .error (.name name))) ∧
    (∀ (t : T) (name : String), name ∈ ["store8", "store16", "store32"] →
      (t.Category = .Int →
        ∃ a, (name, a) ∈ memoryStores.integer ∧ memoryStores.lookup t name = .ok a) ∧
      (t.Category = .Float → memoryStores.lookup t name = .error (.name name))) := by
  refine ⟨?_, ?_, ?_, ?_, ?_⟩
  · intro as t name ht
    exact lookup_category as t name as.integer (by simp only [memoryAccesses.lookup, ht])
  · intro as t name ht
    exact lookup_category as t name as.float (by simp only [memoryAccesses.lookup, ht])
  · intro as t name ht
    simp only [memoryAccesses.lookup, ht]
  · intro t name hn
    simp only [List.mem_cons, List.mem_singleton, List.not_mem_nil, or_false] at hn
    rcases hn with hn | hn | hn | hn | hn | hn <;> subst hn <;>
      exact ⟨fun ht => by simp [memoryAccesses.lookup, ht, memoryLoads, List.lookup],
        fun ht => by simp [memoryAccesses.lookup, ht, memoryLoads, List.lookup]⟩
  · intro t name hn
    simp only [List.mem_cons, List.mem_singleton, List.not_mem_nil, or_false] at hn
    rcases hn with hn | hn | hn <;> subst hn <;>
      exact ⟨fun ht => by simp [memoryAccesses.lookup, ht, memoryStores, List.lookup],
        fun ht => by simp [memoryAccesses.lookup, ht, memoryStores, List.lookup]⟩

/-- A run of `lookup_fails_exactly_on_absent_names`: `load8_s` is found for
`I32`, is absent for `F32`, and a type of another category panics with the
type. -/
theorem lookup_fails_exactly_on_absent_names_witness :
    (∃ a, ("load8_s", a) ∈ memoryLoads.integer ∧ memoryLoads.lookup I32 "load8_s" = .ok a) ∧
    memoryLoads.lookup F32 "load8_s" = .error (.name "load8_s") ∧
    memoryLoads.lookup ⟨.other, .Size32⟩ "load" = .error (.type ⟨.other, .Size32⟩) :=
  ⟨(lookup_fails_exactly_on_absent_names.2.2.2.1 I32 "load8_s" (by simp)).1 rfl,
   (lookup_fails_exactly_on_absent_names.2.2.2.1 F32 "load8_s" (by simp)).2 rfl,
   lookup_fails_exactly_on_absent_names.2.2.1 memoryLoads ⟨.other, .Size32⟩ "load" rfl⟩

/-- C10: for every call of `StoreOp` on a table entry: the events of the address
resolver hold no store and, besides instructions, only the borrow of the
address operand and the release of the register borrowed for it; (i) on the
deadend path the only event is the jump to the trap, so no store is emitted and
no register is borrowed or freed; (ii) on the immediate path the only further
event is the immediate-to-memory store; (iii) on the register path the further
events are, in this order, one borrow of the value register with type `t`, the
register-to-memory store from that register, and one `FreeReg` of that register
with type `t` if the borrow reported `own = true`, none otherwise. -/
theorem StoreOp_register_release (mach : X86) (code : RegCoder) (name : String) (t : T)
    (a b : Operand) (st : memoryAccess) (hl : memoryStores.lookup t name = .ok st) :
    (∀ e ∈ (opMemoryAddress mach code t a st.truncate).1,
      e.isMemoryInsn = false ∧
      (e.isInsn = true ∨ e = .opBorrowScratchReg I32 a ∨
        e = .FreeReg I32 (code.opBorrowScratchReg I32 a).1)) ∧
    ((opMemoryAddress mach code t a st.truncate).2.2.2 = true →
      StoreOp mach code name t a b = .ok ([.op .JmpRel code.MemoryOutOfBounds], true)) ∧
    ((opMemoryAddress mach code t a st.truncate).2.2.2 = false →
      ∀ bits, b.Storage = .Imm → storeImmBits st.truncate (b.ImmValue t) = some bits →
      StoreOp mach code name t a b =
        .ok ((opMemoryAddress mach code t a st.truncate).1 ++
          [.opImmToIndirect st.insn (if st.truncate ≥ 1 ∧ st.truncate ≤ 4 then I32 else t)
            (opMemoryAddress mach code t a st.truncate).2.1
            (opMemoryAddress mach code t a st.truncate).2.2.1 bits], false)) ∧
    ((opMemoryAddress mach code t a st.truncate).2.2.2 = false →
      (b.Storage ≠ .Imm ∨ storeImmBits st.truncate (b.ImmValue t) = none) →
      StoreOp mach code name t a b =
        .ok ((opMemoryAddress mach code t a st.truncate).1 ++
          ([.opBorrowResultReg t b,
            .opToIndirect st.insn (if st.truncate ≥ 1 ∧ st.truncate ≤ 4 then I32 else t)
              (code.opBorrowResultReg t b).1 0 mach.NoIndex
              (opMemoryAddress mach code t a st.truncate).2.1
              (opMemoryAddress mach code t a st.truncate).2.2.1] ++
           (if (code.opBorrowResultReg t b).2.2 then
             [.FreeReg t (code.opBorrowResultReg t b).1] else [])), false)) := by
  refine ⟨opMemoryAddress_events mach code t a st.truncate, ?_, ?_, ?_⟩
  · intro hd
    rw [StoreOp_eq mach code name t a b st hl]
    simp only [hd, if_true]
    rw [opMemoryAddress_deadend mach code t a st.truncate hd]
  · intro hd bits hb hv
    rw [StoreOp_eq mach code name t a b st hl]
    simp only [hd, hb, hv, if_true]
    rfl
  · intro hd h
    rw [StoreOp_eq mach code name t a b st hl]
    rcases h with hb | hv
    · simp only [hd, hb, if_false]
      rfl
    · by_cases hb : b.Storage = .Imm
      · simp only [hd, hb, hv, if_true]
        rfl
      · simp only [hd, hb, if_false]
        rfl

/-- A run of `StoreOp_register_release`: `store f64` of a register-held value
through a register-held address (scenario 5, register path). -/
theorem StoreOp_register_release_witness :
    StoreOp mach0 code0 "store" F64 (TempRegOperand 3 .NoExt) (TempRegOperand 5 .NoExt) =
      .ok ([.opBorrowScratchReg I32 (TempRegOperand 3 .NoExt),
            .opFromReg .Mov I32 1 1,
            .opFromIndirect .Lea I64 2 0 1 14 8,
            .opFromReg .Cmp I64 2 15,
            .op .Jg 4096,
            .FreeReg I32 1,
            .opBorrowResultReg F64 (TempRegOperand 5 .NoExt),
            .opToIndirect (.binaryInsn .MovsSSE .MovImm) F64 1 0 4 2 (-8),
            .FreeReg F64 1], false) :=
  (StoreOp_register_release mach0 code0 "store" F64 (TempRegOperand 3 .NoExt)
    (TempRegOperand 5 .NoExt) ⟨0, .NoExt, .binaryInsn .MovsSSE .MovImm⟩ rfl).2.2.2 rfl
    (Or.inl (by decide))

/-- C14: on the dynamic-check path, for the truncation widths of the table,
`opMemoryAddress` returns the scratch register with displacement `-S`, where
`S` is the truncation width if nonzero and else the size of the type.  For a
constant address `A` the only address computation is `Lea scratch,
[memoryBase + (A + S)]` without index, for a register address it is `Lea
scratch, [memoryBase + reg + S]`; the value it places in scratch plus the
returned displacement is `memoryBase + A`, respectively `memoryBase + reg`, and
the comparison against the memory limit is made on scratch, the end of the
access. -/
theorem displacement_trick (mach : X86) (code : RegCoder) (t : T) (x : Operand)
    (truncate : Int)
    (hs : truncate = 0 ∨ truncate = 1 ∨ truncate = 2 ∨ truncate = 4) :
    accessSize t truncate = (if truncate ≠ 0 then truncate else t.Size.toInt) ∧
    ((x.Storage = .Imm ∧ 0 ≤ x.ImmValue I32 ∧
        code.MinMemorySize < x.ImmValue I32 + accessSize t truncate ∧
        x.ImmValue I32 + accessSize t truncate ≤ 2147483648) →
      opMemoryAddress mach code t x truncate =
        ([.opFromIndirect .Lea I64 mach.regScratch 0 mach.NoIndex mach.regMemoryPtr
            (x.ImmValue I32 + accessSize t truncate),
          .opFromReg .Cmp I64 mach.regScratch mach.regMemoryLimit,
          .op .Jg code.MemoryOutOfBounds],
         mach.regScratch, -accessSize t truncate, false) ∧
      ∀ val : R → Int,
        effectiveAddress mach val mach.NoIndex mach.regMemoryPtr
            (x.ImmValue I32 + accessSize t truncate) + (-accessSize t truncate) =
          val mach.regMemoryPtr + x.ImmValue I32) ∧
    (x.Storage ≠ .Imm →
      (∃ pre post,
        opMemoryAddress mach code t x truncate =
          (pre ++ [.opFromIndirect .Lea I64 mach.regScratch 0 (code.opBorrowScratchReg I32 x).1
                    mach.regMemoryPtr (accessSize t truncate),
                   .opFromReg .Cmp I64 mach.regScratch mach.regMemoryLimit,
                   .op .Jg code.MemoryOutOfBounds] ++ post,
           mach.regScratch, -accessSize t truncate, false) ∧
        (∀ e ∈ pre ++ post, e.isInsn = true → e.isMov = true)) ∧
      ∀ val : R → Int, (code.opBorrowScratchReg I32 x).1 ≠ mach.NoIndex →
        effectiveAddress mach val (code.opBorrowScratchReg I32 x).1 mach.regMemoryPtr
            (accessSize t truncate) + (-accessSize t truncate) =
          val mach.regMemoryPtr + val (code.opBorrowScratchReg I32 x).1) := by
  have hr := accessSize_range t truncate hs
  refine ⟨rfl, ?_, ?_⟩
  · rintro ⟨hx, h0, h1, h2⟩
    have he := end_eq x _ hr.1 hr.2
    refine ⟨?_, ?_⟩
    · rw [opMemoryAddress_checked mach code t x truncate hx h0 (by omega) (by omega), he]
    · intro val
      simp only [effectiveAddress, if_true]
      omega
  · intro hx
    refine ⟨⟨[.opBorrowScratchReg I32 x]
        ++ (if (code.opBorrowScratchReg I32 x).2.1 ≠ .ZeroExt then
              [.opFromReg .Mov I32 (code.opBorrowScratchReg I32 x).1
                (code.opBorrowScratchReg I32 x).1] else []),
      (if (code.opBorrowScratchReg I32 x).2.2 then
              [.FreeReg I32 (code.opBorrowScratchReg I32 x).1] else []), ?_, ?_⟩, ?_⟩
    · rw [opMemoryAddress_reg mach code t x truncate hx]
    · by_cases hz : (code.opBorrowScratchReg I32 x).2.1 = .ZeroExt <;>
        cases ho : (code.opBorrowScratchReg I32 x).2.2 <;>
        simp [hz, Emit.isInsn, Emit.isMov]
    · intro val hne
      simp only [effectiveAddress, if_neg hne]
      omega

/-- A run of `displacement_trick`: `load8_s` at the constant address 70000 with
64 KiB of guaranteed memory computes `base + 70001` and returns displacement
`-1` (scenario 2). -/
theorem displacement_trick_witness :
    opMemoryAddress mach0 code0 I32 (ImmOperand I32 70000) 1 =
      ([.opFromIndirect .Lea I64 2 0 4 14 70001, .opFromReg .Cmp I64 2 15, .op .Jg 4096],
       2, -1, false) :=
  ((displacement_trick mach0 code0 I32 (ImmOperand I32 70000) 1 (Or.inr (Or.inl rfl))).2.1
    ⟨rfl, by decide, by decide, by decide⟩).1

/-- C15: for every address operand that is not an immediate, the events of
`opMemoryAddress` are the borrow of the address register, then the 32-bit
self-move `Mov reg, reg` (typed `I32`) exactly when the extension tag reported
by the borrow is not `ZeroExt`, then the `Lea`, the check and the release; so
the self-move is the only register move, it precedes the `Lea`, and it is
emitted if and only if the tag is not `ZeroExt`.  For an immediate address no
register move is emitted. -/
theorem defensive_zero_extension (mach : X86) (code : RegCoder) (t : T) (x : Operand)
    (truncate : Int) :
    (x.Storage ≠ .Imm →
      (opMemoryAddress mach code t x truncate).1 =
        [.opBorrowScratchReg I32 x]
          ++ (if (code.opBorrowScratchReg I32 x).2.1 ≠ .ZeroExt then
                [.opFromReg .Mov I32 (code.opBorrowScratchReg I32 x).1
                  (code.opBorrowScratchReg I32 x).1] else [])
          ++ [.opFromIndirect .Lea I64 mach.regScratch 0 (code.opBorrowScratchReg I32 x).1
                mach.regMemoryPtr (accessSize t truncate),
              .opFromReg .Cmp I64 mach.regScratch mach.regMemoryLimit,
              .op .Jg code.MemoryOutOfBounds]
          ++ (if (code.opBorrowScratchReg I32 x).2.2 then
                [.FreeReg I32 (code.opBorrowScratchReg I32 x).1] else []) ∧
      (opMemoryAddress mach code t x truncate).1.filter Emit.isMov =
        (if (code.opBorrowScratchReg I32 x).2.1 ≠ .ZeroExt then
          [.opFromReg .Mov I32 (code.opBorrowScratchReg I32 x).1
            (code.opBorrowScratchReg I32 x).1] else []) ∧
      (Emit.opFromReg .Mov I32 (code.opBorrowScratchReg I32 x).1
          (code.opBorrowScratchReg I32 x).1 ∈ (opMemoryAddress mach code t x truncate).1 ↔
        (code.opBorrowScratchReg I32 x).2.1 ≠ .ZeroExt)) ∧
    (x.Storage = .Imm →
      (opMemoryAddress mach code t x truncate).1.filter Emit.isMov = []) := by
  refine ⟨?_, ?_⟩
  · intro hx
    rw [opMemoryAddress_reg mach code t x truncate hx]
    refine ⟨rfl, ?_, ?_⟩
    · by_cases hz : (code.opBorrowScratchReg I32 x).2.1 = .ZeroExt <;>
        cases ho : (code.opBorrowScratchReg I32 x).2.2 <;>
        simp [hz, Emit.isMov, List.filter]
    · by_cases hz : (code.opBorrowScratchReg I32 x).2.1 = .ZeroExt <;>
        cases ho : (code.opBorrowScratchReg I32 x).2.2 <;>
        simp [hz]
  · intro hx
    simp only [opMemoryAddress, hx]
    split_ifs <;> simp [Emit.isMov, List.filter]

/-- A run of `defensive_zero_extension`: a register-held address whose tag is
`NoExt` gets the self-move. -/
theorem defensive_zero_extension_witness :
    (opMemoryAddress mach0 code0 F64 (TempRegOperand 3 .NoExt) 0).1.filter Emit.isMov =
      [.opFromReg .Mov I32 1 1] :=
  ((defensive_zero_extension mach0 code0 F64 (TempRegOperand 3 .NoExt) 0).1 (by decide)).2.1

/-- C16: for every `StoreOp` call on a table entry that is not a deadend, the
events after those of the address resolver are either the immediate-to-memory
store or the borrow of the value register with the logical type `t`, the
register-to-memory store and, if owned, the release with type `t`; the type
passed to the store instruction is `I32` when the truncation width is 1, 2 or 4
and `t` when it is 0; `store8`, `store16` and `store32` have the widths 1, 2, 4
and `store` has width 0. -/
theorem effective_store_type (mach : X86) (code : RegCoder) (name : String) (t : T)
    (a b : Operand) (st : memoryAccess) (hl : memoryStores.lookup t name = .ok st)
    (hd : (opMemoryAddress mach code t a st.truncate).2.2.2 = false) :
    (∃ bits,
      StoreOp mach code name t a b =
        .ok ((opMemoryAddress mach code t a st.truncate).1 ++
          [.opImmToIndirect st.insn (if st.truncate = 0 then t else I32)
            (opMemoryAddress mach code t a st.truncate).2.1
            (opMemoryAddress mach code t a st.truncate).2.2.1 bits], false) ∨
      StoreOp mach code name t a b =
        .ok ((opMemoryAddress mach code t a st.truncate).1 ++
          ([.opBorrowResultReg t b,
            .opToIndirect st.insn (if st.truncate = 0 then t else I32)
              (code.opBorrowResultReg t b).1 0 mach.NoIndex
              (opMemoryAddress mach code t a st.truncate).2.1
              (opMemoryAddress mach code t a st.truncate).2.2.1] ++
           (if (code.opBorrowResultReg t b).2.2 then
             [.FreeReg t (code.opBorrowResultReg t b).1] else [])), false)) ∧
    (name = "store8" → st.truncate = 1) ∧ (name = "store16" → st.truncate = 2) ∧
    (name = "store32" → st.truncate = 4) ∧ (name = "store" → st.truncate = 0) ∧
    (st.truncate = 0 ∨ st.truncate = 1 ∨ st.truncate = 2 ∨ st.truncate = 4) := by
  have htr := memoryStores_truncate t name st hl
  have hop : (if st.truncate ≥ 1 ∧ st.truncate ≤ 4 then I32 else t) =
      (if st.truncate = 0 then t else I32) := by
    rcases htr with h | h | h | h <;> simp [h]
  refine ⟨?_, ?_, ?_, ?_, ?_, htr⟩
  · rw [StoreOp_eq mach code name t a b st hl, hop]
    simp only [hd]
    by_cases hb : b.Storage = .Imm
    · cases hv : storeImmBits st.truncate (b.ImmValue t) with
      | some bits => exact ⟨bits, Or.inl (by simp [hb])⟩
      | none => exact ⟨0, Or.inr (by simp [hb, storeFromReg])⟩
    · exact ⟨0, Or.inr (by simp [hb, storeFromReg])⟩
  all_goals
    intro hn
    subst hn
    unfold memoryAccesses.lookup at hl
    cases hc : t.Category <;> simp [hc, memoryStores, List.lookup] at hl <;> simp [← hl]

/-- A run of `effective_store_type`: `store8` of an `I64` register value is
encoded with type `I32` while the register is borrowed and freed as `I64`. -/
theorem effective_store_type_witness :
    ∃ bits,
      StoreOp mach0 code0 "store8" I64 (ImmOperand I32 0) (TempRegOperand 5 .NoExt) =
        .ok ([] ++ [.opImmToIndirect .Mov8 I32 14 0 bits], false) ∨
      StoreOp mach0 code0 "store8" I64 (ImmOperand I32 0) (TempRegOperand 5 .NoExt) =
        .ok ([] ++ ([.opBorrowResultReg I64 (TempRegOperand 5 .NoExt),
                     .opToIndirect .Mov8 I32 1 0 4 14 0] ++ [.FreeReg I64 1]), false) :=
  (effective_store_type mach0 code0 "store8" I64 (ImmOperand I32 0) (TempRegOperand 5 .NoExt)
    ⟨1, .NoExt, .Mov8⟩ rfl rfl).1

theorem writeVarint64_eq (x : Int) :
    writeVarint64 x =
      if x / 128 = 0 ∨ x / 128 = -1 then [(x % 128).toNat]
      else ((x % 128).toNat + 128) :: writeVarint64 (x / 128) := by
  rw [writeVarint64]
  by_cases h : x / 128 = 0 ∨ x / 128 = -1
  · rw [if_pos h, if_pos (by omega)]
  · rw [if_neg h, if_neg (by omega)]

/-- The bytes written for a value of `7 * (k + 1)` bits: at most `k + 1` bytes,
all but the last with bit 7 set. -/
theorem writeVarint64_shape (k : Nat) :
    ∀ x : Int, -(128 ^ (k + 1) : Int) ≤ x → x < 128 ^ (k + 1) →
      ∃ init last, writeVarint64 x = init ++ [last] ∧
        (∀ b ∈ init, 128 ≤ b ∧ b < 256) ∧ last < 128 ∧ init.length ≤ k := by
  induction k with
  | zero =>
    intro x h1 h2
    simp only [zero_add, pow_one] at h1 h2
    refine ⟨[], (x % 128).toNat, ?_, by simp, by omega, by simp⟩
    rw [writeVarint64_eq, if_pos (by omega)]
    rfl
  | succ k ih =>
    intro x h1 h2
    have hp : (128 : Int) ^ (k + 1 + 1) = 128 * 128 ^ (k + 1) := by ring
    rw [hp] at h1 h2
    by_cases h : x / 128 = 0 ∨ x / 128 = -1
    · refine ⟨[], (x % 128).toNat, ?_, by simp, by omega, by simp⟩
      rw [writeVarint64_eq, if_pos h]
      rfl
    · obtain ⟨init, last, he, hi, hl, hn⟩ := ih (x / 128) (by omega) (by omega)
      refine ⟨((x % 128).toNat + 128) :: init, last, ?_, ?_, hl, by simp; omega⟩
      · rw [writeVarint64_eq, if_neg h, he]
        rfl
      · intro b hb
        rcases List.mem_cons.1 hb with hb | hb
        · subst hb; omega
        · exact hi b hb

/-- C20: `writeVarint64` is a total function, and for every 64-bit signed
integer `x` it writes between 1 and 10 bytes (in fact at most 9), every byte
except the last with the continuation bit 0x80 set and the last with it
clear. -/
theorem writeVarint64_terminates (x : Int) (h1 : -9223372036854775808 ≤ x)
    (h2 : x < 9223372036854775808) :
    ∃ init last, writeVarint64 x = init ++ [last] ∧
      (∀ b ∈ init, 128 ≤ b ∧ b < 256) ∧ last < 128 ∧
      1 ≤ (writeVarint64 x).length ∧ (writeVarint64 x).length ≤ 10 ∧
      (writeVarint64 x).length ≤ 9 := by
  obtain ⟨init, last, he, hi, hl, hn⟩ := writeVarint64_shape 8 x (by norm_num; omega)
    (by norm_num; omega)
  refine ⟨init, last, he, hi, hl, ?_, ?_, ?_⟩ <;> (rw [he]; simp; try omega)

/-- A run of `writeVarint64_terminates` at the smallest 64-bit integer. -/
theorem writeVarint64_terminates_witness :
    ∃ init last, writeVarint64 (-9223372036854775808) = init ++ [last] ∧
      (∀ b ∈ init, 128 ≤ b ∧ b < 256) ∧ last < 128 ∧
      1 ≤ (writeVarint64 (-9223372036854775808)).length ∧
      (writeVarint64 (-9223372036854775808)).length ≤ 10 ∧
      (writeVarint64 (-9223372036854775808)).length ≤ 9 :=
  writeVarint64_terminates (-9223372036854775808) (by decide) (by decide)

/-- C18, the code at the failing input: `writeVarint64 64` writes the single byte
0x40, which the signed LEB128 decoder reads as -64; so `writeConstOp` encodes
the `I32` argument 64 as `i32.const -64`.  Likewise `writeVarint64 (-65)` writes
0x3f, read as 63, and `writeVarint7 127` writes 0x7f, read as -1. -/
theorem writeVarint64_round_trip_fails :
    writeVarint64 64 = [0x40] ∧ decodeVarint [0x40] = some (-64, []) ∧
    writeConstOp I32 64 = .ok [0x41, 0x40] ∧
    writeVarint64 (-65) = [0x3f] ∧ decodeVarint [0x3f] = some (63, []) ∧
    writeVarint7 127 = [0x7f] ∧ decodeVarint [0x7f] = some (-1, []) := by
  refine ⟨?_, by decide, ?_, ?_, by decide, ?_, by decide⟩
  · simp [writeVarint64]
  · simp [writeConstOp, writeVarint32, writeVarint64, int32]
  · simp [writeVarint64]
  · simp [writeVarint7, writeVarint64]

theorem PutUvarint_eq (x : Nat) :
    PutUvarint x = if 128 ≤ x then (x % 128 + 128) :: PutUvarint (x / 128) else [x] := by
  rw [PutUvarint]

/-- The encoding of a value below `128 ^ (k + 1)`: at most `k + 1` bytes, all
but the last with bit 7 set, and the last is nonzero unless it is the only
byte. -/
theorem PutUvarint_shape (k : Nat) :
    ∀ x : Nat, x < 128 ^ (k + 1) →
      ∃ init last, PutUvarint x = init ++ [last] ∧
        (∀ b ∈ init, 128 ≤ b ∧ b < 256) ∧ last < 128 ∧ init.length ≤ k ∧
        (init ≠ [] → last ≠ 0) := by
  induction k with
  | zero =>
    intro x h
    simp only [zero_add, pow_one] at h
    refine ⟨[], x, ?_, by simp, h, by simp, by simp⟩
    rw [PutUvarint_eq, if_neg (by omega)]
    rfl
  | succ k ih =>
    intro x h
    have hp : 128 ^ (k + 1 + 1) = 128 * 128 ^ (k + 1) := by ring
    rw [hp] at h
    by_cases hx : 128 ≤ x
    · obtain ⟨init, last, he, hi, hl, hn, hz⟩ := ih (x / 128) (by omega)
      refine ⟨(x % 128 + 128) :: init, last, ?_, ?_, hl, by simp; omega, ?_⟩
      · rw [PutUvarint_eq, if_pos hx, he]
        rfl
      · intro b hb
        rcases List.mem_cons.1 hb with hb | hb
        · subst hb; omega
        · exact hi b hb
      · intro _
        by_cases hin : init = []
        · subst hin
          rw [PutUvarint_eq] at he
          by_cases h2 : 128 ≤ x / 128
          · rw [if_pos h2] at he
            simp at he
            omega
          · rw [if_neg h2] at he
            simp at he
            omega
        · exact hz hin
    · refine ⟨[], x, ?_, by simp, by omega, by simp, by simp⟩
      rw [PutUvarint_eq, if_neg hx]
      rfl

theorem PutUvarint_length (x : Nat) (h : x < 4294967296) :
    1 ≤ (PutUvarint x).length ∧ (PutUvarint x).length ≤ 5 := by
  obtain ⟨init, last, he, -, -, hn, -⟩ := PutUvarint_shape 4 x (by norm_num; omega)
  rw [he]
  simp
  omega

theorem UvarintLoop_PutUvarint (k : Nat) :
    ∀ (x i acc s : Nat) (rest : List Nat), i + k = 9 → x < 2 * 128 ^ k →
      UvarintLoop (PutUvarint x ++ rest) i acc s =
        (acc + x * 2 ^ s, ((i + (PutUvarint x).length : Nat) : Int)) := by
  induction k with
  | zero =>
    intro x i acc s rest hi hx
    simp only [pow_zero, mul_one] at hx
    have h9 : i = 9 := by omega
    subst h9
    rw [PutUvarint_eq, if_neg (by omega)]
    simp only [List.singleton_append, UvarintLoop, List.length_singleton]
    rw [if_neg (by omega), if_pos (by omega), if_neg (by omega)]
    simp
  | succ k ih =>
    intro x i acc s rest hi hx
    have hp : 128 ^ (k + 1) = 128 * 128 ^ k := by ring
    rw [hp] at hx
    by_cases h : 128 ≤ x
    · rw [PutUvarint_eq, if_pos h]
      simp only [List.cons_append, UvarintLoop, List.length_cons, List.append_eq]
      rw [if_neg (by omega), if_neg (by omega), ih (x / 128) (i + 1) _ (s + 7) rest (by omega)
        (by omega)]
      have hm : (x % 128 + 128) % 128 = x % 128 := by omega
      have hd : x % 128 + 128 * (x / 128) = x := Nat.mod_add_div x 128
      have hs : 2 ^ (s + 7) = 128 * 2 ^ s := by ring
      have hv : acc + x % 128 * 2 ^ s + x / 128 * (128 * 2 ^ s) = acc + x * 2 ^ s := by
        calc acc + x % 128 * 2 ^ s + x / 128 * (128 * 2 ^ s)
            = acc + (x % 128 + 128 * (x / 128)) * 2 ^ s := by ring
          _ = acc + x * 2 ^ s := by rw [hd]
      rw [hm, hs, hv]
      congr 1
      push_cast
      ring
    · rw [PutUvarint_eq, if_neg h]
      simp only [List.singleton_append, UvarintLoop, List.length_singleton]
      rw [if_neg (by omega), if_pos (by omega), if_neg (by omega)]
      simp

/-- Go's `binary.Uvarint` reads back what `binary.PutUvarint` stored for a
`uint64`, whatever follows. -/
theorem Uvarint_PutUvarint (x : Nat) (rest : List Nat) (h : x < 18446744073709551616) :
    Uvarint (PutUvarint x ++ rest) = (x, ((PutUvarint x).length : Int)) := by
  rw [Uvarint, UvarintLoop_PutUvarint 9 x 0 0 0 rest rfl (by norm_num; omega)]
  simp

theorem drop_five (enc zeros payload : List Nat) (hz : zeros.length = 5)
    (hn : enc.length ≤ 5) :
    (enc ++ (zeros ++ payload).drop enc.length).drop 5 = payload := by
  rw [List.drop_append_eq_append_drop, List.drop_of_length_le hn, List.nil_append,
    List.drop_drop]
  have h5 : ∀ k, k = 5 → List.drop k (zeros ++ payload) = payload := by
    intro k hk
    subst hk
    rw [← hz, List.drop_left]
  exact h5 _ (by omega)

theorem frame_core (enc zeros payload : List Nat) (hz : zeros.length = 5)
    (hn : enc.length ≤ 5) :
    ((enc ++ (zeros ++ payload).drop enc.length).take enc.length ++
      copy ((enc ++ (zeros ++ payload).drop enc.length).drop enc.length)
        ((enc ++ (zeros ++ payload).drop enc.length).drop 5)).take
        (enc.length + payload.length) = enc ++ payload := by
  rw [drop_five enc zeros payload hz hn, List.take_left, List.drop_left]
  unfold copy
  have hl : ((zeros ++ payload).drop enc.length).length = 5 - enc.length + payload.length := by
    simp [hz]; omega
  have h1 : payload.take (5 - enc.length + payload.length) = payload :=
    List.take_of_length_le (by omega)
  rw [hl, h1, ← List.append_assoc]
  exact List.take_left' (by simp)



theorem writeSection_eq (b : List Nat) (sectionType : Nat) (payload : List Nat)
    (writePayload : List Nat → List Nat) (hw : ∀ buf, writePayload buf = buf ++ payload)
    (hp : payload.length < 4294967296) :
    writeSection b sectionType writePayload =
      some (b ++ [sectionType] ++ PutUvarint payload.length ++ payload) := by
  have hlen := PutUvarint_length payload.length hp
  have hsz : (((b ++ [sectionType] ++ List.replicate 5 0 ++ payload).length : Int)
      - ((b ++ [sectionType] ++ List.replicate 5 0).length : Int)) = payload.length := by
    simp only [List.length_append, List.length_replicate, List.length_singleton]
    omega
  have hmod : ((payload.length : Int) % 18446744073709551616).toNat = payload.length := by
    omega
  have hdrop : (b ++ [sectionType] ++ List.replicate 5 0 ++ payload).drop
      (b ++ [sectionType]).length = List.replicate 5 0 ++ payload := by
    rw [List.append_assoc (b ++ [sectionType]), List.drop_left]
  have htake : (b ++ [sectionType] ++ List.replicate 5 0 ++ payload).take
      (b ++ [sectionType]).length = b ++ [sectionType] := by
    rw [List.append_assoc (b ++ [sectionType]), List.take_left]
  unfold writeSection
  simp only [hw, hsz, hmod, hdrop, htake]
  generalize PutUvarint payload.length = enc at hlen ⊢
  have hcore := frame_core enc (List.replicate 5 0) payload (by simp) hlen.2
  generalize (List.take enc.length (enc ++ List.drop enc.length (List.replicate 5 0 ++ payload)) ++
    copy (List.drop enc.length (enc ++ List.drop enc.length (List.replicate 5 0 ++ payload)))
      (List.drop 5 (enc ++ List.drop enc.length (List.replicate 5 0 ++ payload)))) = D
    at hcore ⊢
  have hDlen : enc.length + payload.length ≤ D.length := by
    have := congrArg List.length hcore
    simp only [List.length_take, List.length_append] at this
    omega
  have hnat : (((b ++ [sectionType]).length : Int) + enc.length + payload.length).toNat =
      (b ++ [sectionType]).length + (enc.length + payload.length) := by omega
  rw [if_pos (by simp), if_pos (by simp; omega), if_pos (by simp; omega), hnat,
    List.take_append, hcore]
  simp

/-- C19: when the payload writer only appends the bytes `payload`, fewer than
2^32, `writeSection` leaves the buffer equal to its previous contents followed
by the id byte, the bytes `PutUvarint` stores for the payload length and the
payload bytes in order.  Those length bytes are the minimal unsigned LEB128
encoding: they decode to the length, every byte but the last has bit 7 set, the
last has it clear and is nonzero unless it is the only byte, and there are at
most five. -/
theorem section_framing (b : List Nat) (sectionType : Nat) (payload : List Nat)
    (writePayload : List Nat → List Nat) (hw : ∀ buf, writePayload buf = buf ++ payload)
    (hp : payload.length < 4294967296) :
    writeSection b sectionType writePayload =
      some (b ++ [sectionType] ++ PutUvarint payload.length ++ payload) ∧
    (∀ rest, Uvarint (PutUvarint payload.length ++ rest) =
      (payload.length, ((PutUvarint payload.length).length : Int))) ∧
    ∃ init last, PutUvarint payload.length = init ++ [last] ∧
      (∀ x ∈ init, 128 ≤ x ∧ x < 256) ∧ last < 128 ∧ init.length ≤ 4 ∧
      (init ≠ [] → last ≠ 0) :=
  ⟨writeSection_eq b sectionType payload writePayload hw hp,
   fun rest => Uvarint_PutUvarint payload.length rest (by omega),
   PutUvarint_shape 4 payload.length (by norm_num; omega)⟩

/-- A run of `section_framing`: a three-byte payload after three buffered bytes. -/
theorem section_framing_witness :
    writeSection [1, 2, 3] 7 (fun buf => buf ++ [9, 8, 7]) =
      some ([1, 2, 3] ++ [7] ++ PutUvarint 3 ++ [9, 8, 7]) :=
  (section_framing [1, 2, 3] 7 [9, 8, 7] (fun buf => buf ++ [9, 8, 7]) (fun _ => rfl)
    (by decide)).1

theorem writeConstOp_scalar (t : T) (a : Nat)
    (ht : t = I32 ∨ t = I64 ∨ t = F32 ∨ t = F64) : ∃ c, writeConstOp t a = .ok c := by
  rcases ht with h | h | h | h <;> subst h <;> simp [writeConstOp, I32, I64, F32, F64]

/-- The loop over the parameters writes one constant instruction per parameter,
in order, for the argument at the same index. -/
theorem writeConstOps_ok (params : List T) :
    ∀ (args : List Nat) (i : Nat), params.length + i ≤ args.length →
      (∀ t ∈ params, t = I32 ∨ t = I64 ∨ t = F32 ∨ t = F64) →
      ∃ cs : List (List Nat),
        List.Forall₂ (fun (ta : T × Nat) (c : List Nat) => writeConstOp ta.1 ta.2 = .ok c)
          (params.zip (args.drop i)) cs ∧
        writeConstOps params args i = .ok cs.flatten := by
  induction params with
  | nil =>
    intro args i _ _
    exact ⟨[], by simp, by simp [writeConstOps]⟩
  | cons t params ih =>
    intro args i hlen hsc
    have hi : i < args.length := by simp at hlen; omega
    obtain ⟨c, hc⟩ := writeConstOp_scalar t args[i] (hsc t (List.mem_cons_self _ _))
    obtain ⟨cs, hcs, hw⟩ := ih args (i + 1) (by simp at hlen; omega)
      (fun u hu => hsc u (List.mem_cons_of_mem _ hu))
    refine ⟨c :: cs, ?_, ?_⟩
    · rw [List.drop_eq_getElem_cons hi, List.zip_cons_cons]
      exact List.Forall₂.cons hc hcs
    · simp only [writeConstOps, List.getElem?_eq_getElem hi, hc, hw, List.flatten_cons]

theorem sliceFrom_append (pre post : List Nat) (i : Int) (hi : i = pre.length) :
    sliceFrom (pre ++ post) i = .ok post := by
  subst hi
  unfold sliceFrom
  rw [if_pos (by simp)]
  simp

/-- The result of `appendEntryFunctionCode` on a section made of an id byte, a
size field of which `binary.Uvarint` reads `encSize.length` bytes, and a payload
whose body count reads as `n` from the bytes `encN`. -/
theorem appendEntryFunctionCode_eq (id : Nat) (encSize encN B : List Nat) (n callIndex : Nat)
    (params : List T) (args : List Nat) (consts : List Nat)
    (hsize : (Uvarint (encSize ++ (encN ++ B))).2 = encSize.length)
    (hcount : Uvarint (encN ++ B) = (n, (encN.length : Int)))
    (hc : writeConstOps params args 0 = .ok consts) :
    appendEntryFunctionCode (id :: (encSize ++ (encN ++ B))) callIndex params args =
      .ok (id :: (PutUvarint
        ((PutUvarint ((n + 1) % 4294967296) ++ B ++
          PutUvarint (([0] ++ consts ++ [0x10] ++ PutUvarint callIndex ++ [0x0b]).length
            % 4294967296) ++
          ([0] ++ consts ++ [0x10] ++ PutUvarint callIndex ++ [0x0b])).length % 4294967296) ++
        (PutUvarint ((n + 1) % 4294967296) ++ B ++
          PutUvarint (([0] ++ consts ++ [0x10] ++ PutUvarint callIndex ++ [0x0b]).length
            % 4294967296) ++
          ([0] ++ consts ++ [0x10] ++ PutUvarint callIndex ++ [0x0b])))) := by
  have h1 : sliceFrom (id :: (encSize ++ (encN ++ B))) 1 = .ok (encSize ++ (encN ++ B)) :=
    sliceFrom_append [id] _ 1 rfl
  have h2 : sliceFrom (id :: (encSize ++ (encN ++ B))) (1 + (encSize.length : Int)) =
      .ok (encN ++ B) := by
    have := sliceFrom_append (id :: encSize) (encN ++ B) (1 + (encSize.length : Int))
      (by simp; omega)
    simpa using this
  have h3 : sliceFrom (encN ++ B) (encN.length : Int) = .ok B := sliceFrom_append encN B _ rfl
  have h0 : PutUvarint 0 = [0] := by simp [PutUvarint]
  simp only [appendEntryFunctionCode, hc, h1, hsize, h2, hcount, h3, bind, Except.bind,
    writeVaruint32, h0, pure, Except.pure]

/-- The framing done by `appendEntryFunctionCode`: for a code section made of an
id byte, a size field, a body count reading as `n` and the body bytes `B`, and
for scalar parameter types with at least as many arguments, the function
returns.  With `cs` the bytes `writeConstOp` writes for the parameters in
order, each called with the argument of the same index, and `body = 0x00 ++ cs
++ 0x10 ++ uvarint(callIndex) ++ 0x0b`, the result is the id byte, the payload
size and the payload made of the body count plus one, the old bodies `B`
unchanged, the size of `body` and `body`, the three numbers being written as
`uint32`.  What the bytes of `cs` encode is not part of this statement. -/
theorem appendEntryFunctionCode_framing (id : Nat) (encSize encN B : List Nat)
    (n callIndex : Nat)
    (params : List T) (args : List Nat)
    (hsize : (Uvarint (encSize ++ (encN ++ B))).2 = encSize.length)
    (hcount : Uvarint (encN ++ B) = (n, (encN.length : Int)))
    (hargs : params.length ≤ args.length)
    (hparams : ∀ t ∈ params, t = I32 ∨ t = I64 ∨ t = F32 ∨ t = F64) :
    ∃ cs : List (List Nat),
      List.Forall₂ (fun (ta : T × Nat) (c : List Nat) => writeConstOp ta.1 ta.2 = .ok c)
        (params.zip args) cs ∧
      cs.length = params.length ∧
      ∀ body : List Nat,
        body = [0] ++ cs.flatten ++ [0x10] ++ PutUvarint callIndex ++ [0x0b] →
        (∀ Q : List Nat,
          Q = PutUvarint ((n + 1) % 4294967296) ++ B ++
            PutUvarint (body.length % 4294967296) ++ body →
          appendEntryFunctionCode (id :: (encSize ++ (encN ++ B))) callIndex params args =
            .ok (id :: (PutUvarint (Q.length % 4294967296) ++ Q))) ∧
        (∀ P : List Nat,
          P = PutUvarint (n + 1) ++ B ++ PutUvarint body.length ++ body →
          n + 1 < 4294967296 → body.length < 4294967296 → P.length < 4294967296 →
          appendEntryFunctionCode (id :: (encSize ++ (encN ++ B))) callIndex params args =
            .ok (id :: (PutUvarint P.length ++ P))) := by
  obtain ⟨cs, hcs, hw⟩ := writeConstOps_ok params args 0 (by omega) hparams
  rw [List.drop_zero] at hcs
  have heq := appendEntryFunctionCode_eq id encSize encN B n callIndex params args cs.flatten
    hsize hcount hw
  refine ⟨cs, hcs, ?_, ?_⟩
  · have := hcs.length_eq
    simp only [List.length_zip] at this
    omega
  · intro body hb
    subst hb
    refine ⟨?_, ?_⟩
    · intro Q hQ
      subst hQ
      exact heq
    · intro P hP h1 h2 h3
      subst hP
      rw [heq, Nat.mod_eq_of_lt h1, Nat.mod_eq_of_lt h2, Nat.mod_eq_of_lt h3]

/-- The framing at a section with one body of two bytes, the target function 3
and the parameters `(i32, i64)` called with `(0, 0)`. -/
theorem appendEntryFunctionCode_framing_zero_args :
    appendEntryFunctionCode [10, 4, 1, 2, 0, 11] 3 [I32, I64] [0, 0] =
      .ok [10, 13, 2, 2, 0, 11, 8, 0, 0x41, 0, 0x42, 0, 0x10, 3, 0x0b] := by
  obtain ⟨cs, hcs, -, h⟩ := appendEntryFunctionCode_framing 10 [4] [1] [2, 0, 11] 1 3
    [I32, I64] [0, 0] rfl rfl (by decide) (by simp)
  have hcs2 : cs = [[0x41, 0], [0x42, 0]] := by
    simp only [List.zip_cons_cons, List.zip_nil_right, List.forall₂_cons_left_iff,
      List.forall₂_nil_left_iff] at hcs
    obtain ⟨c1, l1, h1, ⟨c2, l2, h2, h3, h4⟩, h5⟩ := hcs
    subst h3
    subst h4
    subst h5
    have e1 : writeConstOp I32 0 = .ok [0x41, 0] := by
      simp [writeConstOp, writeVarint32, writeVarint64, int32]
    have e2 : writeConstOp I64 0 = .ok [0x42, 0] := by
      simp [writeConstOp, writeVarint64, int64, I32, I64]
    rw [e1] at h1
    rw [e2] at h2
    cases h1
    cases h2
    rfl
  subst hcs2
  have := (h _ rfl).2 _ rfl (by decide) (by simp [PutUvarint]) (by simp [PutUvarint])
  simpa [PutUvarint] using this

theorem findEntrySig_spec (result : T) :
    ∀ (sigs : List Function) (i : Nat),
      (findEntrySig result sigs i = -1 ∧
        ∀ sig ∈ sigs, ¬(sig.Args = [] ∧ sig.Result = result)) ∨
      (∃ k, k < sigs.length ∧ findEntrySig result sigs i = ((i + k : Nat) : Int) ∧
        (∃ sig, sigs[k]? = some sig ∧ sig.Args = [] ∧ sig.Result = result) ∧
        ∀ j < k, ∀ sig, sigs[j]? = some sig → ¬(sig.Args = [] ∧ sig.Result = result)) := by
  intro sigs
  induction sigs with
  | nil =>
    intro i
    left
    simp [findEntrySig]
  | cons sig sigs ih =>
    intro i
    by_cases h : sig.Args.length = 0 ∧ sig.Result = result
    · right
      refine ⟨0, by simp, by simp [findEntrySig, h], ⟨sig, by simp, ?_, h.2⟩, by simp⟩
      exact List.length_eq_zero.1 h.1
    · have hn : ¬(sig.Args = [] ∧ sig.Result = result) := by
        intro hc
        exact h ⟨by simp [hc.1], hc.2⟩
      rcases ih (i + 1) with ⟨h1, h2⟩ | ⟨k, hk, h1, h2, h3⟩
      · left
        refine ⟨by simp only [findEntrySig, if_neg h, h1], ?_⟩
        intro s hs
        rcases List.mem_cons.1 hs with hs | hs
        · subst hs; exact hn
        · exact h2 s hs
      · right
        refine ⟨k + 1, by simp; omega, ?_, ?_, ?_⟩
        · simp only [findEntrySig, if_neg h, h1]
          congr 1
          omega
        · simpa using h2
        · intro j hj s hs
          cases j with
          | zero =>
            simp at hs
            subst hs
            exact hn
          | succ j =>
            simp at hs
            exact h3 j (by omega) s hs

/-- C13: for a loaded module whose target export is defined (the target
function and its signature exist, and there are fewer than 2^32 signatures),
`EntryFunction` gives the entry function the index `len(FuncSigs)` and appends
its signature index to `FuncSigs`; that index refers, in the updated `Sigs`, to
a signature with no parameters and the result type of the target; it is the
first such signature of the old `Sigs` or, when there is none, the index of one
newly appended; every old signature and function-signature index keeps its
position. -/
theorem entry_function_signature (m : Module) (targetSigIndex : Nat) (targetSig : Function)
    (hdef : m.EntryDefined = true)
    (hf : m.FuncSigs[m.EntryIndex]? = some targetSigIndex)
    (hs : m.Sigs[targetSigIndex]? = some targetSig)
    (hlen : m.Sigs.length < 4294967296) :
    ∃ m1 entrySigIndex,
      entryFunctionSignature m = .ok (m1, entrySigIndex, m.FuncSigs.length) ∧
      m1.FuncSigs = m.FuncSigs ++ [entrySigIndex] ∧
      m1.FuncSigs[m.FuncSigs.length]? = some entrySigIndex ∧
      (∃ sig, m1.Sigs[entrySigIndex]? = some sig ∧ sig.Args = [] ∧
        sig.Result = targetSig.Result) ∧
      (∀ j < entrySigIndex, ∀ sig, m.Sigs[j]? = some sig →
        ¬(sig.Args = [] ∧ sig.Result = targetSig.Result)) ∧
      ((entrySigIndex < m.Sigs.length ∧ m1.Sigs = m.Sigs) ∨
        (entrySigIndex = m.Sigs.length ∧
          m1.Sigs = m.Sigs ++ [{ Args := [], Result := targetSig.Result }] ∧
          ∀ sig ∈ m.Sigs, ¬(sig.Args = [] ∧ sig.Result = targetSig.Result))) ∧
      (∀ (j : Nat) (sig : Function), m.Sigs[j]? = some sig → m1.Sigs[j]? = some sig) ∧
      (∀ (j f : Nat), m.FuncSigs[j]? = some f → m1.FuncSigs[j]? = some f) := by
  have hpre : ∀ {α : Type} (l l2 : List α) (j : Nat) (a : α),
      l[j]? = some a → (l ++ l2)[j]? = some a := by
    intro α l l2 j a h
    have hj : j < l.length := by
      by_contra hc
      rw [List.getElem?_eq_none (by omega)] at h
      cases h
    rw [List.getElem?_append_left hj]
    exact h
  rcases findEntrySig_spec targetSig.Result m.Sigs 0 with ⟨h1, h2⟩ | ⟨k, hk, h1, h2, h3⟩
  · refine ⟨{ m with Sigs := m.Sigs ++ [{ Args := [], Result := targetSig.Result }],
                     FuncSigs := m.FuncSigs ++ [m.Sigs.length] }, m.Sigs.length, ?_, rfl, ?_,
      ?_, ?_, ?_, ?_, ?_⟩
    · have hm : ((m.Sigs.length : Int) % 4294967296).toNat = m.Sigs.length := by omega
      simp [entryFunctionSignature, hdef, hf, hs, h1, hm]
    · simp
    · exact ⟨{ Args := [], Result := targetSig.Result }, by simp, rfl, rfl⟩
    · intro j _ sig hsig
      exact h2 sig (List.getElem?_mem hsig)
    · exact Or.inr ⟨rfl, rfl, h2⟩
    · intro j sig hsig
      exact hpre _ _ j sig hsig
    · intro j f hfj
      exact hpre _ _ j f hfj
  · simp only [zero_add] at h1
    refine ⟨{ m with FuncSigs := m.FuncSigs ++ [k] }, k, ?_, rfl, ?_, ?_, h3, ?_, ?_, ?_⟩
    · have hm : ((k : Int) % 4294967296).toNat = k := by omega
      have hk0 : ¬((k : Int) < 0) := by omega
      simp [entryFunctionSignature, hdef, hf, hs, h1, hm, hk0]
    · simp
    · exact h2
    · exact Or.inl ⟨hk, rfl⟩
    · intro j sig hsig
      exact hsig
    · intro j f hfj
      exact hpre _ _ j f hfj

/-- A run of `entry_function_signature`: the target `(i32, i32) -> i32` is
function 0 and no signature `() -> i32` exists yet. -/
theorem entry_function_signature_witness :
    ∃ m1 entrySigIndex,
      entryFunctionSignature ⟨[⟨[I32, I32], I32⟩], [0], true, 0⟩ = .ok (m1, entrySigIndex, 1) ∧
      m1.FuncSigs = [0] ++ [entrySigIndex] ∧
      ∃ sig, m1.Sigs[entrySigIndex]? = some sig ∧ sig.Args = [] ∧ sig.Result = I32 := by
  obtain ⟨m1, e, h1, h2, -, h3, -⟩ := entry_function_signature
    ⟨[⟨[I32, I32], I32⟩], [0], true, 0⟩ 0 ⟨[I32, I32], I32⟩ rfl rfl rfl (by decide)
  exact ⟨m1, e, h1, h2, h3⟩

theorem CopyN_append (payload tail : List Nat) :
    CopyN (payload ++ tail) payload.length = (payload, tail, none) := by
  simp [CopyN]

theorem copyLoop_unknown (expectId fuel : Nat) (enc payload tail : List Nat)
    (henc : IsVaruint32 enc payload.length) :
    copyLoop expectId (fuel + 1) (SectionUnknown :: (enc ++ (payload ++ tail))) =
      copyLoop expectId fuel tail := by
  simp only [copyLoop, if_true, henc (payload ++ tail), CopyN_append]

/-- The loop passes over complete unknown sections without writing. -/
theorem copyLoop_skip (expectId : Nat) (pre : List Nat) (hpre : UnknownSections pre) :
    ∀ (fuel : Nat) (tail : List Nat), (pre ++ tail).length < fuel →
      ∃ fuel1, tail.length < fuel1 ∧
        copyLoop expectId fuel (pre ++ tail) = copyLoop expectId fuel1 tail := by
  induction hpre with
  | nil =>
    intro fuel tail h
    exact ⟨fuel, by simpa using h, rfl⟩
  | cons enc payload rest henc _ ih =>
    intro fuel tail h
    cases fuel with
    | zero => simp at h
    | succ fuel =>
      have hassoc : SectionUnknown :: (enc ++ (payload ++ rest)) ++ tail =
          SectionUnknown :: (enc ++ (payload ++ (rest ++ tail))) := by simp
      rw [hassoc, copyLoop_unknown expectId fuel enc payload (rest ++ tail) henc]
      apply ih
      rw [hassoc] at h
      simp only [List.length_cons, List.length_append] at h ⊢
      omega

theorem copyLoop_nil (expectId fuel : Nat) (h : 0 < fuel) :
    copyLoop expectId fuel [] = some (.ok false, [], []) := by
  cases fuel with
  | zero => omega
  | succ fuel => rfl

theorem copyLoop_expected (expectId fuel : Nat) (enc payload rest : List Nat)
    (h : 0 < fuel) (hne : expectId ≠ SectionUnknown) (henc : IsVaruint32 enc payload.length) :
    copyLoop expectId fuel (expectId :: (enc ++ (payload ++ rest))) =
      some (.ok true, [expectId] ++ PutUvarint payload.length ++ payload, rest) := by
  cases fuel with
  | zero => omega
  | succ fuel =>
    simp only [copyLoop, if_neg hne, if_true, henc (payload ++ rest), CopyN_append]

theorem copyLoop_other (expectId fuel id : Nat) (rest : List Nat)
    (h : 0 < fuel) (h0 : id ≠ SectionUnknown) (hne : id ≠ expectId) :
    copyLoop expectId fuel (id :: rest) = some (.ok false, [], id :: rest) := by
  cases fuel with
  | zero => omega
  | succ fuel =>
    simp only [copyLoop, if_neg h0, if_neg hne]

/-- C11: for a stream of zero or more complete unknown sections followed by a
section whose id is `sectionType`, not 0, with a varuint32 length of value `L`
and `L` payload bytes, `CopySpecific` returns `ok = true` and no error, writes
exactly the id byte, the unsigned LEB128 bytes of `L` and the `L` payload bytes,
and leaves the reader right after the payload. -/
theorem copy_specific_copies (pre enc payload rest : List Nat) (sectionType : Nat)
    (hpre : UnknownSections pre) (hne : sectionType ≠ SectionUnknown)
    (henc : IsVaruint32 enc payload.length) :
    CopySpecific (pre ++ (sectionType :: (enc ++ (payload ++ rest)))) sectionType =
      some (true, none, [sectionType] ++ PutUvarint payload.length ++ payload, rest) := by
  obtain ⟨fuel1, hf, he⟩ := copyLoop_skip sectionType pre hpre
    ((pre ++ (sectionType :: (enc ++ (payload ++ rest)))).length + 1)
    (sectionType :: (enc ++ (payload ++ rest))) (by omega)
  simp only [CopySpecific, copyPanic, he,
    copyLoop_expected sectionType fuel1 enc payload rest (by omega) hne henc]

theorem Varuint32Loop_PutUvarint (k : Nat) :
    ∀ (x i acc s : Nat) (rest : List Nat), i + k = 4 → x < 16 * 128 ^ k →
      Varuint32Loop (PutUvarint x ++ rest) i acc s = (.ok (acc + x * 2 ^ s), rest) := by
  induction k with
  | zero =>
    intro x i acc s rest hi hx
    simp only [pow_zero, mul_one] at hx
    rw [PutUvarint_eq, if_neg (by omega)]
    simp only [List.singleton_append, Varuint32Loop]
    rw [if_pos (by omega), if_neg (by omega)]
    rfl
  | succ k ih =>
    intro x i acc s rest hi hx
    have hp : 128 ^ (k + 1) = 128 * 128 ^ k := by ring
    rw [hp] at hx
    by_cases h : 128 ≤ x
    · rw [PutUvarint_eq, if_pos h]
      simp only [List.cons_append, Varuint32Loop, List.append_eq]
      rw [if_neg (by omega), ih (x / 128) (i + 1) _ (s + 7) rest (by omega) (by omega)]
      have hm : (x % 128 + 128) % 128 = x % 128 := by omega
      have hd : x % 128 + 128 * (x / 128) = x := Nat.mod_add_div x 128
      have hs : 2 ^ (s + 7) = 128 * 2 ^ s := by ring
      have hv : acc + x % 128 * 2 ^ s + x / 128 * (128 * 2 ^ s) = acc + x * 2 ^ s := by
        calc acc + x % 128 * 2 ^ s + x / 128 * (128 * 2 ^ s)
            = acc + (x % 128 + 128 * (x / 128)) * 2 ^ s := by ring
          _ = acc + x * 2 ^ s := by rw [hd]
      rw [hm, hs, hv]
    · rw [PutUvarint_eq, if_neg h]
      simp only [List.singleton_append, Varuint32Loop]
      rw [if_pos (by omega), if_neg (by omega)]
      rfl

/-- The unsigned LEB128 bytes of a value below 2^32 are a varuint32 of that
value. -/
theorem IsVaruint32_PutUvarint (v : Nat) (h : v < 4294967296) :
    IsVaruint32 (PutUvarint v) v := by
  intro rest
  rw [Varuint32, Varuint32Loop_PutUvarint 4 v 0 0 0 rest rfl (by norm_num; omega)]
  simp

/-- A run of `copy_specific_copies`: an unknown section of two bytes, then the
code section with three payload bytes, then one more byte. -/
theorem copy_specific_copies_witness :
    CopySpecific ([0, 2, 9, 9] ++ (10 :: ([3] ++ ([1, 2, 3] ++ [11])))) 10 =
      some (true, none, [10] ++ PutUvarint 3 ++ [1, 2, 3], [11]) :=
  copy_specific_copies [0, 2, 9, 9] [3] [1, 2, 3] [11] 10
    (UnknownSections.cons [2] [9, 9] [] (fun _ => rfl) UnknownSections.nil)
    (by decide) (fun _ => rfl)

theorem Varuint32Loop_length :
    ∀ (r : List Nat) (i x s : Nat), (Varuint32Loop r i x s).2.length ≤ r.length := by
  intro r
  induction r with
  | nil => intro i x s; simp [Varuint32Loop]
  | cons b r ih =>
    intro i x s
    simp only [Varuint32Loop]
    split_ifs
    · simp
    · simp
    · exact Nat.le_trans (ih _ _ _) (by simp)

theorem CopyN_length (r : List Nat) (n : Nat) : (CopyN r n).2.1.length ≤ r.length := by
  unfold CopyN
  split_ifs <;> simp

/-- With the id of unknown sections as the expected id the loop ends within one
turn per byte and never writes. -/
theorem copyLoop_discard (fuel : Nat) :
    ∀ r : List Nat, r.length < fuel →
      ∃ out left, copyLoop SectionUnknown fuel r = some (out, [], left) := by
  induction fuel with
  | zero => intro r h; omega
  | succ fuel ih =>
    intro r h
    cases r with
    | nil => exact ⟨_, _, rfl⟩
    | cons id r =>
      by_cases h0 : id = SectionUnknown
      · have hv := Varuint32Loop_length r 0 0 0
        rcases hr : Varuint32 r with ⟨res, r1⟩
        have hr1 : r1.length ≤ r.length := by
          have := congrArg (fun p => p.2.length) hr
          simp only [Varuint32] at this
          omega
        cases res with
        | error e =>
          simp only [copyLoop, if_pos h0, hr]
          exact ⟨_, _, rfl⟩
        | ok payloadLen =>
          have hc := CopyN_length r1 payloadLen
          rcases hcn : CopyN r1 payloadLen with ⟨copied, r2, err⟩
          rw [hcn] at hc
          cases err with
          | some e =>
            simp only [copyLoop, if_pos h0, hr, hcn]
            exact ⟨_, _, rfl⟩
          | none =>
            simp only [copyLoop, if_pos h0, hr, hcn]
            apply ih
            simp only [List.length_cons] at h
            simp only at hc
            omega
      · simp only [copyLoop, if_neg h0]
        exact ⟨_, _, rfl⟩

/-- C12: after zero or more complete unknown sections, if the next section id is
neither 0 nor `sectionType`, `CopySpecific` returns `ok = false` and no error,
writes nothing and leaves the reader at that id; if the stream ends there it
returns the same with an empty reader.  `DiscardUnknownSections` returns on
every stream without writing, and on such streams it consumes exactly the
leading unknown sections. -/
theorem copy_specific_leaves_other (pre : List Nat) (hpre : UnknownSections pre) :
    (∀ (sectionType id : Nat) (rest : List Nat), id ≠ SectionUnknown → id ≠ sectionType →
      CopySpecific (pre ++ id :: rest) sectionType = some (false, none, [], id :: rest)) ∧
    (∀ sectionType : Nat, CopySpecific pre sectionType = some (false, none, [], [])) ∧
    (∀ r : List Nat, ∃ ok err left, DiscardUnknownSections r = some (ok, err, [], left)) ∧
    (∀ (id : Nat) (rest : List Nat), id ≠ SectionUnknown →
      DiscardUnknownSections (pre ++ id :: rest) = some (false, none, [], id :: rest)) ∧
    DiscardUnknownSections pre = some (false, none, [], []) := by
  have hother : ∀ (sectionType id : Nat) (rest : List Nat), id ≠ SectionUnknown →
      id ≠ sectionType →
      CopySpecific (pre ++ id :: rest) sectionType = some (false, none, [], id :: rest) := by
    intro sectionType id rest h0 hne
    obtain ⟨fuel1, hf, he⟩ := copyLoop_skip sectionType pre hpre
      ((pre ++ id :: rest).length + 1) (id :: rest) (by omega)
    simp only [CopySpecific, copyPanic, he,
      copyLoop_other sectionType fuel1 id rest (by omega) h0 hne]
  have heof : ∀ sectionType : Nat, CopySpecific pre sectionType = some (false, none, [], []) := by
    intro sectionType
    obtain ⟨fuel1, hf, he⟩ := copyLoop_skip sectionType pre hpre
      ((pre ++ []).length + 1) [] (by omega)
    rw [List.append_nil] at he
    simp only [CopySpecific, copyPanic, he, copyLoop_nil sectionType fuel1 (by omega)]
  refine ⟨hother, heof, ?_, ?_, heof SectionUnknown⟩
  · intro r
    obtain ⟨out, left, h⟩ := copyLoop_discard (r.length + 1) r (by omega)
    cases out with
    | ok b => exact ⟨b, none, left, by simp only [DiscardUnknownSections, CopySpecific, copyPanic, h]⟩
    | error e =>
      exact ⟨false, some e, left, by simp only [DiscardUnknownSections, CopySpecific, copyPanic, h]⟩
  · intro id rest h0
    exact hother SectionUnknown id rest h0 h0

/-- A run of `copy_specific_leaves_other`: after an unknown section of two
bytes the section 7 is met while the code section is wanted. -/
theorem copy_specific_leaves_other_witness :
    CopySpecific ([0, 2, 9, 9] ++ 7 :: [3, 1, 2, 3]) 10 =
      some (false, none, [], 7 :: [3, 1, 2, 3]) :=
  (copy_specific_leaves_other [0, 2, 9, 9]
    (UnknownSections.cons [2] [9, 9] [] (fun _ => rfl) UnknownSections.nil)).1
    10 7 [3, 1, 2, 3] (by decide) (by decide)

/-- C17, the code at the failing input: for a well-formed code section with one
body, the target function 3 and the single `i32` parameter called with the
argument 64, `appendEntryFunctionCode` keeps the old body, raises the body
count to 2 and declares the sizes 11 and 6, but the constant instruction of the
new body is `0x41 0x40`, whose operand the signed LEB128 decoder reads as -64,
not as the argument 64 (which is written `0xc0 0x00`). -/
theorem append_entry_body_constant_differs :
    appendEntryFunctionCode [10, 4, 1, 2, 0, 11] 3 [I32] [64] =
      .ok [10, 11, 2, 2, 0, 11, 6, 0, 0x41, 0x40, 0x10, 3, 0x0b] ∧
    writeConstOp I32 64 = .ok [0x41, 0x40] ∧
    decodeVarint [0x40, 0x10, 3, 0x0b] = some (-64, [0x10, 3, 0x0b]) ∧
    decodeVarint [0xc0, 0x00, 0x10, 3, 0x0b] = some (64, [0x10, 3, 0x0b]) := by
  have hc : writeConstOp I32 64 = .ok [0x41, 0x40] := by
    simp [writeConstOp, writeVarint32, writeVarint64, int32]
  have hw : writeConstOps [I32] [64] 0 = .ok [0x41, 0x40] := by
    simp [writeConstOps, hc]
  have h := appendEntryFunctionCode_eq 10 [4] [1] [2, 0, 11] 1 3 [I32] [64] [0x41, 0x40]
    rfl rfl hw
  refine ⟨?_, hc, by decide, by decide⟩
  simpa [PutUvarint] using h

end Wag
